import Mathlib

/-!
# Verification of the pytribeam GUI configuration/runner model

Shallow embedding of the versioned LUT schema engine
(`src/pytribeam/GUI/config_ui/lookup.py`), the pipeline configuration model
(`src/pytribeam/GUI/config_ui/pipeline_model.py`), the editor controller
(`src/pytribeam/GUI/config_ui/editor_controller.py`) and the experiment run
controller (`src/pytribeam/GUI/runner/experiment_controller.py`).

Modelling conventions:
* Python strings are modelled as `List Char` (`Str`); string concatenation is
  list append and `str.split` is modelled by `pySplit` below.
* Python dicts are modelled as insertion-ordered association lists with the
  exact CPython semantics of `d[k] = v` (overwrite in place, else append) and
  `d.update`.
* Python floats used as *version numbers* (1.0, 1.1, ...) are modelled as `ℚ`;
  the code only ever compares them, so this is exact.
* Fallible Python code is modelled in `Except PyError`.
-/

/-- Python string model: a string is its sequence of characters. -/
abbrev Str := List Char

/-- Python exceptions that the modelled code can raise.  `keyboardInterrupt`
models `KeyboardInterrupt`, which derives from `BaseException` but *not* from
`Exception`; every other constructor models an `Exception` subclass. -/
inductive PyError where
  | attributeError (obj attr : String)
  | typeError (msg : String)
  | valueError (msg : String)
  | keyError (msg : String)
  | indexError
  | nameError (msg : String)
  | fileNotFoundError (msg : String)
  | keyboardInterrupt
  | otherException (msg : String)
deriving DecidableEq, Repr

/-- Whether a raised object is caught by `except Exception` in CPython:
`KeyboardInterrupt` (a `BaseException`) is not; everything else here is. -/
def PyError.isExceptionClass : PyError → Bool
  | .keyboardInterrupt => false
  | _ => true

/-! ## Python dict model (insertion-ordered association lists) -/

/-- CPython `d[k] = v`: overwrite in place when the key exists, else append. -/
def dinsert (k : Str) (v : α) : List (Str × α) → List (Str × α)
  | [] => [(k, v)]
  | (k', v') :: tl => if k' = k then (k, v) :: tl else (k', v') :: dinsert k v tl

/-- CPython `d.get(k)` / `k in d` combined: first binding of `k`. -/
def dlookup (k : Str) : List (Str × α) → Option α
  | [] => none
  | (k', v') :: tl => if k' = k then some v' else dlookup k tl

/-- CPython `d.update(d2)`: insert the items of `d2` in order. -/
def dupdate (d d2 : List (Str × α)) : List (Str × α) :=
  d2.foldl (fun acc kv => dinsert kv.1 kv.2 acc) d

/-! ## Python `str.split` with a non-empty separator -/

/-- First occurrence of `sep` in `s`: the text before it and the text after. -/
def splitFirst (sep : Str) : Str → Option (Str × Str)
  | [] => if sep.isPrefixOf ([] : Str) then some ([], []) else none
  | c :: tl =>
    if sep.isPrefixOf (c :: tl) then some ([], (c :: tl).drop sep.length)
    else
      match splitFirst sep tl with
      | none => none
      | some (pre, post) => some (c :: pre, post)

/-- Fuel-driven splitting loop; `s.length + 1` fuel always suffices for a
non-empty separator because each found occurrence strictly shortens the rest. -/
def pySplitCore (sep : Str) : Nat → Str → List Str
  | 0, s => [s]
  | fuel + 1, s =>
    match splitFirst sep s with
    | none => [s]
    | some (pre, post) => pre :: pySplitCore sep fuel post

/-- Python `s.split(sep)` for a non-empty `sep` (CPython raises `ValueError`
for an empty separator; callers below check that before splitting). -/
def pySplit (sep s : Str) : List Str := pySplitCore sep (s.length + 1) s

/-! ## LUT data model (`lookup.py`)

`LUTField` is the `NamedTuple` of `lookup.py`.  Widget classes and widget
kwargs are GUI objects with no behaviour in the modelled code; they are
carried as opaque strings.  Field defaults are likewise carried in their
string form (the code only ever stringifies them).  The version axis
`tbt.Limit(min, max)` is a pair of rationals. -/

structure Limit where
  min : ℚ
  max : ℚ
deriving DecidableEq, Repr

/-- The `dtype` of a field: one of `int`/`float`/`str`/`bool`. -/
inductive Dtype where
  | int
  | float
  | str
  | bool
deriving DecidableEq, Repr

structure LUTField where
  label : String
  default : String
  widget : String
  widgetKwargs : List (String × String)
  helpText : String
  dtype : Dtype
  version : Limit
deriving DecidableEq, Repr

/-! A `LUT` is an insertion-ordered mapping from names to entries, where an
entry is either a `LUTField` leaf or a nested `LUT`.  The Python `LUT.name`
attribute is dropped: it takes no part in equality (`LUT.__eq__` compares
flattened content only) nor in the structural claims below.  `EntryL` is the
entry list of one level, isomorphic to `List (Str × Entry)` but mutually
inductive with `Entry` so that all functions are structurally recursive. -/
mutual
inductive Entry where
  | field (f : LUTField)
  | sub (l : EntryL)
deriving DecidableEq
inductive EntryL where
  | nil
  | cons (key : Str) (e : Entry) (tl : EntryL)
deriving DecidableEq
end

namespace EntryL

/-- Keys of one level, in order. -/
def keys : EntryL → List Str
  | .nil => []
  | .cons k _ tl => k :: keys tl

/-- Dict lookup on one level. -/
def lookupE (k : Str) : EntryL → Option Entry
  | .nil => none
  | .cons k' e tl => if k' = k then some e else lookupE k tl

/-- Dict assignment `entries[k] = e` on one level (CPython semantics). -/
def dinsertE (k : Str) (v : Entry) : EntryL → EntryL
  | .nil => .cons k v .nil
  | .cons k' e tl => if k' = k then .cons k v tl else .cons k' e (dinsertE k v tl)

/-- Concatenation of two levels (used only in specifications/proofs). -/
def appendL : EntryL → EntryL → EntryL
  | .nil, l₂ => l₂
  | .cons k e tl, l₂ => .cons k e (appendL tl l₂)

/-- Whether the level has at least one entry (Python truthiness of the dict). -/
def isCons : EntryL → Bool
  | .nil => false
  | .cons _ _ _ => true

end EntryL

mutual
/-- Size of an entry (strictly positive), used for induction. -/
def Entry.esize : Entry → Nat
  | .field _ => 1
  | .sub l => 1 + l.lsize
/-- Size of a level, used for induction. -/
def EntryL.lsize : EntryL → Nat
  | .nil => 0
  | .cons _ e tl => e.esize + tl.lsize
end

mutual
/-- Flattening (`LUT._flatten`), entry case: a field is written at its path
(`flattened[current_path] = entry`), a nested LUT is flattened into a fresh
dict and merged (`flattened.update(nested_flat)`). -/
def flattenE (sep path : Str) (e : Entry) (acc : List (Str × LUTField)) :
    List (Str × LUTField) :=
  match e with
  | .field f => dinsert path f acc
  | .sub l => dupdate acc (flattenL sep (path ++ sep) l [])
/-- Flattening (`LUT._flatten`), loop over one level: `current_path = prefix + name`. -/
def flattenL (sep pfx : Str) (l : EntryL) (acc : List (Str × LUTField)) :
    List (Str × LUTField) :=
  match l with
  | .nil => acc
  | .cons name e tl => flattenL sep pfx tl (flattenE sep (pfx ++ name) e acc)
end

/-- In-place `LUT.flatten(separator)`: replace the entries by the flat path dict. -/
def lutFlatten (sep : Str) (l : EntryL) : List (Str × LUTField) :=
  flattenL sep [] l []

/-- One item of `LUT._unflatten`: walk/create intermediate LUT nodes along
`parts[:-1]`, then assign the field at the last part.  Descending into an
existing `LUTField` raises `AttributeError` (a `NamedTuple` has no `_entries`);
since CPython only creates a node after all previous parts resolved to
existing entries, an error implies nothing was mutated, so returning the
untouched accumulator on `.error` is exact. -/
def insertParts (f : LUTField) : List Str → EntryL → Except PyError EntryL
  | [], _ => .error .indexError
  | [last], cur => .ok (cur.dinsertE last (.field f))
  | p :: q :: rest, cur =>
    match cur.lookupE p with
    | none =>
      match insertParts f (q :: rest) .nil with
      | .ok subL => .ok (cur.dinsertE p (.sub subL))
      | .error e => .error e
    | some (.sub l) =>
      match insertParts f (q :: rest) l with
      | .ok l' => .ok (cur.dinsertE p (.sub l'))
      | .error e => .error e
    | some (.field _) => .error (.attributeError "LUTField" "_entries")

/-- Rebuilding (`LUT._unflatten`): rebuild a tree from a flat path dict, iterating the
items in insertion order.  CPython raises `ValueError` from `path.split("")`
on an empty separator, checked per item exactly as `split` is called. -/
def unflattenPass (sep : Str) (flat : List (Str × LUTField)) :
    Except PyError EntryL :=
  flat.foldlM
    (fun acc pf =>
      if sep = [] then .error (.valueError "empty separator")
      else insertParts pf.2 (pySplit sep pf.1) acc)
    .nil

/-- Composition `lut.flatten(sep)` followed by `lut.unflatten(sep)`. -/
def roundtrip (sep : Str) (l : EntryL) : Except PyError EntryL :=
  unflattenPass sep (lutFlatten sep l)

mutual
/-- Non-separator keys, per-level key uniqueness and non-empty groups,
entry side. -/
def goodE (c : Char) : Entry → Bool
  | .field _ => true
  | .sub l => l.isCons && goodL c l
/-- Non-separator keys, per-level key uniqueness and non-empty groups,
level side. -/
def goodL (c : Char) : EntryL → Bool
  | .nil => true
  | .cons k e tl =>
    !(k.contains c) && !((EntryL.keys tl).contains k) && goodE c e && goodL c tl
end

/-! ## Specification form of flattening

On trees whose flattened paths are all distinct, the dict-accumulating
`flattenL` coincides with plain concatenation (`flatSpecL`), proved below. -/

mutual
/-- Plain-concatenation form of `flattenE`. -/
def flatSpecE (sep path : Str) : Entry → List (Str × LUTField)
  | .field f => [(path, f)]
  | .sub l => flatSpecL sep (path ++ sep) l
/-- Plain-concatenation form of `flattenL`. -/
def flatSpecL (sep pfx : Str) : EntryL → List (Str × LUTField)
  | .nil => []
  | .cons k e tl => flatSpecE sep (pfx ++ k) e ++ flatSpecL sep pfx tl
end

/-- Per-item step of `unflattenPass` for a fixed single-character separator. -/
def insStep (c : Char) (acc : EntryL) (pf : Str × LUTField) : Except PyError EntryL :=
  insertParts pf.2 (pySplit [c] pf.1) acc

/-! ## Concrete sample trees -/

/-- Shorthand for building concrete fields in examples. -/
def sampleField (lab : String) (dt : Dtype) (lim : Limit) : LUTField :=
  ⟨lab, "", "Entry", [], "", dt, lim⟩

/-- A tree with a key that contains the separator character: both leaves are
`LUTField`s and keys are unique within the level. -/
def c2BadTree : EntryL :=
  .cons ['a'] (.field (sampleField "A" .str ⟨1, 2⟩))
    (.cons ['a', '/', 'b'] (.field (sampleField "B" .int ⟨1, 2⟩)) .nil)

/-- A well-formed nested sample tree. -/
def c2GoodTree : EntryL :=
  .cons "beam".toList
    (.sub (.cons "voltage".toList (.field (sampleField "Voltage" .float ⟨1, 2⟩))
      (.cons "enabled".toList (.field (sampleField "Enabled" .bool ⟨1, 2⟩)) .nil)))
    (.cons "detector".toList (.field (sampleField "Detector" .str ⟨1, 2⟩)) .nil)

/-! ## `VersionedLUT.get_lut` (`lookup.py`) -/

/-- Modelled from the spec: `ut.in_interval(version, interval, IntervalType.CLOSED)`
(the `pytribeam.utilities` module is not part of the GUI sources); the spec
defines it as the closed-interval test on the version axis,
`min ≤ version ≤ max`. -/
def in_interval (v : ℚ) (lim : Limit) : Bool :=
  decide (lim.min ≤ v) && decide (v ≤ lim.max)

/-- Python `str.lower()`. -/
def strLower (s : Str) : Str := s.map Char.toLower

/-- Model of module-level `get_lut` / `VersionedLUT.get_lut`: constructing
`VersionedLUT()` computes `max(VERSIONS)` (raising `ValueError` on an empty
version list), then the requested version is checked against the version
list, the step type (lowercased) against the table, and the step's LUT is
deep-copied, flattened with the default `"/"` separator, stripped of every
entry whose interval fails the closed-interval test (the iterate-and-pop
loop removes exactly those items, preserving dict order, i.e. a filter),
and unflattened again.  The master table and version list are parameters:
in `lookup.py` they are the module-level `LUTs` dict and `VERSIONS` list. -/
def get_lut (tables : List (Str × EntryL)) (versions : List ℚ)
    (step_type : Str) (version : Option ℚ) : Except PyError EntryL :=
  match versions.max? with
  | none => .error (.valueError "max() arg is an empty sequence")
  | some dflt =>
    let v := version.getD dflt
    if versions.contains v then
      match dlookup (strLower step_type) tables with
      | none => .error (.valueError "unknown step type")
      | some l =>
        let flat := lutFlatten ['/'] l
        let filtered := flat.filter (fun pf => in_interval v pf.2.version)
        unflattenPass ['/'] filtered
    else .error (.valueError "unknown version")

mutual
/-- Validity of every field's version interval, entry side. -/
def allFieldsValidE (v : ℚ) : Entry → Bool
  | .field f => in_interval v f.version
  | .sub l => allFieldsValidL v l
/-- Validity of every field's version interval, level side. -/
def allFieldsValidL (v : ℚ) : EntryL → Bool
  | .nil => true
  | .cons _ e tl => allFieldsValidE v e && allFieldsValidL v tl
end

mutual
/-- Absence of empty nested groups, entry side. -/
def noEmptyE : Entry → Bool
  | .field _ => true
  | .sub l => l.isCons && noEmptyL l
/-- Absence of empty nested groups, level side. -/
def noEmptyL : EntryL → Bool
  | .nil => true
  | .cons _ e tl => noEmptyE e && noEmptyL tl
end

/-! ## Pipeline configuration model (`pipeline_model.py`)

`StepConfig.parameters` holds string-encoded values (the editor layer keeps
everything as strings until serialization), so parameter dicts are
`List (Str × Str)` with the CPython dict semantics of `dinsert`.
`file_path` is dropped: none of the modelled operations reads it.

`_populate_default_parameters` reads the step type's LUT at the pipeline's
version and stringifies every default (returning `{}` when the LUT lookup
fails).  The pipeline operations never inspect that dict's content — they
only overwrite the three `step_general/...` keys — so it enters the model as
an opaque parameter `defaults : Str → List (Str × Str)`, and all theorems
below hold for every choice of it. -/

/-- Python `str(i)` for an int. -/
def pyStr (i : Int) : Str := (toString i).toList

structure StepConfig where
  index : Int
  step_type : Str
  name : Str
  parameters : List (Str × Str)
deriving DecidableEq, Repr

/-- `StepConfig.set_param`. -/
def StepConfig.set_param (s : StepConfig) (path value : Str) : StepConfig :=
  { s with parameters := dinsert path value s.parameters }

structure PipelineConfig where
  version : ℚ
  general : StepConfig
  steps : List StepConfig
deriving DecidableEq, Repr

/-- `PipelineConfig._update_step_count`. -/
def update_step_count (p : PipelineConfig) : PipelineConfig :=
  { p with general :=
      p.general.set_param "step_count".toList (pyStr p.steps.length) }

/-- `PipelineConfig.create_new`: general step populated from the general LUT
defaults with `step_count` forced to `"0"`. -/
def create_new (defaults : Str → List (Str × Str)) (version : ℚ) :
    PipelineConfig :=
  let general_params := dinsert "step_count".toList "0".toList
    (defaults "general".toList)
  { version := version
    general := ⟨0, "general".toList, "general".toList, general_params⟩
    steps := [] }

/-- `PipelineConfig.add_step`. -/
def add_step (defaults : Str → List (Str × Str)) (p : PipelineConfig)
    (step_type : Str) (name : Option Str) : PipelineConfig × StepConfig :=
  let index : Int := p.steps.length + 1
  let name : Str :=
    match name with
    | some n => n
    | none =>
      let count := p.steps.countP (fun s => s.step_type == step_type)
      step_type ++ "_".toList ++ pyStr (count + 1)
  let parameters := defaults step_type
  let parameters := dinsert "step_general/step_type".toList step_type parameters
  let parameters := dinsert "step_general/step_name".toList name parameters
  let parameters := dinsert "step_general/step_number".toList (pyStr index) parameters
  let step : StepConfig := ⟨index, step_type, name, parameters⟩
  let p' := update_step_count { p with steps := p.steps ++ [step] }
  (p', step)

/-- Re-indexing loop of `remove_step`:
`for i, step in enumerate(self.steps, 1): step.index = i; step.set_param(...)`. -/
def reindexSteps : Nat → List StepConfig → List StepConfig
  | _, [] => []
  | i, s :: tl =>
    ({ s with index := (i : Int) }.set_param
      "step_general/step_number".toList (pyStr (i : Int))) :: reindexSteps (i + 1) tl

/-- `PipelineConfig.remove_step`. -/
def remove_step (p : PipelineConfig) (index : Int) : PipelineConfig × Bool :=
  if index = 0 ∨ index > (p.steps.length : Int) then (p, false)
  else
    let steps := p.steps.filter (fun s => s.index != index)
    let p' := update_step_count { p with steps := reindexSteps 1 steps }
    (p', true)

/-- CPython list index normalization: non-negative indices must be below the
length, negative indices wrap once from the end. -/
def pyIdx (len : Nat) (i : Int) : Option Nat :=
  if 0 ≤ i then (if i < (len : Int) then some i.toNat else none)
  else (if 0 ≤ i + len then some (i + len).toNat else none)

/-- CPython `l[i]` (raises `IndexError` when out of range). -/
def pyGet {α : Type} (l : List α) (i : Int) : Except PyError α :=
  match pyIdx l.length i with
  | some n =>
    match l.get? n with
    | some a => .ok a
    | none => .error .indexError
  | none => .error .indexError

/-- CPython `l[i] = v`.  In the modelled code every write is preceded by a
successful read of the same index, so the out-of-range case (which CPython
would answer with `IndexError`) is never reached and returns `l` unchanged. -/
def pySet {α : Type} (l : List α) (i : Int) (v : α) : List α :=
  match pyIdx l.length i with
  | some n => l.set n v
  | none => l

/-- Read-modify-write `l[i].f = ...` on the object stored at index `i`. -/
def pyModify {α : Type} (l : List α) (i : Int) (f : α → α) :
    Except PyError (List α) :=
  match pyGet l i with
  | .ok a => .ok (pySet l i (f a))
  | .error e => .error e

/-- `PipelineConfig.move_step`.  The two `if` guards return `False`; past
them, the swap `self.steps[idx1], self.steps[idx2] = self.steps[idx2],
self.steps[idx1]` first evaluates both reads (raising `IndexError` before any
mutation when a very negative `index` fails to normalize), then the four
attribute/param writes mutate the objects now sitting at `idx1`/`idx2`. -/
def move_step (p : PipelineConfig) (index direction : Int) :
    Except PyError (PipelineConfig × Bool) :=
  if index = 0 ∨ index > (p.steps.length : Int) then .ok (p, false)
  else
    let new_index := index + direction
    if new_index < 1 ∨ new_index > (p.steps.length : Int) then .ok (p, false)
    else
      let idx1 := index - 1
      let idx2 := new_index - 1
      match pyGet p.steps idx2, pyGet p.steps idx1 with
      | .ok s2, .ok s1 => do
        let steps := pySet (pySet p.steps idx1 s2) idx2 s1
        let steps ← pyModify steps idx1 (fun s => { s with index := index })
        let steps ← pyModify steps idx2 (fun s => { s with index := new_index })
        let steps ← pyModify steps idx1 (fun s =>
          s.set_param "step_general/step_number".toList (pyStr index))
        let steps ← pyModify steps idx2 (fun s =>
          s.set_param "step_general/step_number".toList (pyStr new_index))
        .ok ({ p with steps := steps }, true)
      | .error e, _ => .error e
      | _, .error e => .error e

/-- `PipelineConfig.duplicate_step`. -/
def duplicate_step (p : PipelineConfig) (index : Int) :
    Except PyError (PipelineConfig × Option StepConfig) :=
  if index = 0 ∨ index > (p.steps.length : Int) then .ok (p, none)
  else
    match pyGet p.steps (index - 1) with
    | .error e => .error e
    | .ok original =>
      let new_index : Int := p.steps.length + 1
      let count := p.steps.countP (fun s => s.step_type == original.step_type)
      let name := original.step_type ++ "_".toList ++ pyStr (count + 1)
      let new_step := { original with index := new_index, name := name }
      let new_step := new_step.set_param "step_general/step_name".toList name
      let new_step := new_step.set_param
        "step_general/step_number".toList (pyStr new_index)
      let p' := update_step_count { p with steps := p.steps ++ [new_step] }
      .ok (p', some new_step)

/-- One mutation call on a pipeline.  `move`/`dup` calls that raise
`IndexError` do so before any mutation, so the pipeline is returned
unchanged in the error case. -/
inductive POp where
  | add (step_type : Str) (name : Option Str)
  | remove (index : Int)
  | move (index direction : Int)
  | dup (index : Int)

def applyOp (defaults : Str → List (Str × Str)) (p : PipelineConfig) :
    POp → PipelineConfig
  | .add st nm => (add_step defaults p st nm).1
  | .remove i => (remove_step p i).1
  | .move i d =>
    match move_step p i d with
    | .ok pr => pr.1
    | .error _ => p
  | .dup i =>
    match duplicate_step p i with
    | .ok pr => pr.1
    | .error _ => p

def applyOps (defaults : Str → List (Str × Str)) (p : PipelineConfig)
    (ops : List POp) : PipelineConfig :=
  ops.foldl (applyOp defaults) p

/-- Contiguity check for the step list: the `j`-th step (counting from `i`)
has `index = i + j` and `step_general/step_number = str(i + j)`. -/
def stepsIndexedB : Int → List StepConfig → Bool
  | _, [] => true
  | i, s :: tl =>
    (s.index == i) &&
    (dlookup "step_general/step_number".toList s.parameters == some (pyStr i)) &&
    stepsIndexedB (i + 1) tl

/-- The spec's pipeline invariant: `general.parameters["step_count"]` is the
string form of `len(steps)` and step indices are contiguous `1..N` in list
order (both in the `index` field and the `step_general/step_number` param). -/
def pipelineInvariant (p : PipelineConfig) : Bool :=
  (dlookup "step_count".toList p.general.parameters ==
    some (pyStr p.steps.length)) &&
  stepsIndexedB 1 p.steps

/-- Restriction of `move_step` calls to the documented direction domain. -/
def opMoveDirOk : POp → Prop
  | .move _ d => d = 1 ∨ d = -1
  | _ => True

/-! ## Experiment run controller (`experiment_controller.py`)

`ExperimentState` is the dataclass of the source.  Wall-clock timing
(`slice_times`, the two formatted strings) is real time and is not modelled:
the strings are carried unchanged.  The workflow engine
(`pytribeam.workflow`) is an external collaborator; `_execute_step` wraps its
exceptions into a `Bool`, modelled by an environment function.  The three
stop flags are set asynchronously by `request_stop_*` from the UI thread;
the model lets them become set during a step's execution (the only window
with real duration in the loop), which covers the claims below. -/

structure ExperimentState where
  current_slice : Int
  current_step : Str
  total_slices : Int
  total_steps : Nat
  is_running : Bool
  should_stop_step : Bool
  should_stop_slice : Bool
  should_stop_now : Bool
  progress_percent : Int
  avg_slice_time_str : Str
  remaining_time_str : Str
deriving DecidableEq, Repr

/-- Dataclass defaults of `ExperimentState`. -/
def ExperimentState.initial : ExperimentState :=
  ⟨1, "-".toList, 0, 0, false, false, false, false, 0, "-".toList, "-".toList⟩

/-- Events delivered through `_notify` (callback side effects as data). -/
inductive GEvent where
  | state_changed
  | experiment_interrupted
  | experiment_completed
  | experiment_stopped (slice : Int) (step_name : Str)
  | experiment_started (slice : Int) (step_idx : Nat)
  | validation_failed (msg : String)
  | detector_warning
  | error_event (msg : String)
deriving DecidableEq, Repr

structure LoopEnv where
  stepSuccess : Int → Nat → Bool
  stopStepDuring : Int → Nat → Bool
  stopSliceDuring : Int → Nat → Bool
  stopNowDuring : Int → Nat → Bool

/-- Effect of `_execute_step(i, j+1, ...)`: the UI thread may set stop flags
while the step runs; the returned `Bool` is the step's success. -/
def execStepEffect (env : LoopEnv) (i : Int) (stepNum : Nat)
    (st : ExperimentState) : ExperimentState × Bool :=
  let st := { st with
    should_stop_step := st.should_stop_step || env.stopStepDuring i stepNum
    should_stop_slice := st.should_stop_slice || env.stopSliceDuring i stepNum
    should_stop_now := st.should_stop_now || env.stopNowDuring i stepNum }
  (st, env.stepSuccess i stepNum)

/-- `_update_progress`: `int((completed_steps / total_work) * 100)`.  The
Python float arithmetic truncates toward zero on the non-negative values
that arise here; modelled as exact integer division. -/
def update_progress (st : ExperimentState) (slice_num : Int) (step_num : Nat)
    (total_slices : Int) (total_steps : Nat) : ExperimentState :=
  let completed : Int := (slice_num - 1) * total_steps + step_num
  let total_work : Int := total_slices * total_steps
  { st with progress_percent := completed * 100 / total_work }

/-- Python `range(a, b)` over ints. -/
def intRange (a b : Int) : List Int :=
  (List.range (b - a).toNat).map (fun k => a + k)

/-- Exit status of the inner `for j in range(num_steps)` loop. -/
inductive InnerRes where
  | finished
  | broke
  | interrupted
  | exc (e : PyError)
deriving DecidableEq, Repr

/-- Inner step loop of `_run_experiment_loop`.  `lastJ` tracks the value of
the loop variable `j` (assigned at every iteration entry, also on
`continue`), which the `finally` block reads via `"j" in locals()`. -/
def runInnerLoop (env : LoopEnv) (names : List Str) (startingSlice : Int)
    (startingIdx : Nat) (endingSlice : Int) (numSteps : Nat) (i : Int) :
    List Nat → ExperimentState → Option Nat → List GEvent →
      ExperimentState × Option Nat × List GEvent × InnerRes
  | [], st, lastJ, evs => (st, lastJ, evs, .finished)
  | j :: rest, st, _, evs =>
    let lastJ := some j
    if i = startingSlice ∧ j < startingIdx then
      runInnerLoop env names startingSlice startingIdx endingSlice numSteps i
        rest st lastJ evs
    else if st.should_stop_now then (st, lastJ, evs, .interrupted)
    else
      match names.get? j with
      | none => (st, lastJ, evs, .exc .indexError)
      | some nm =>
        let st := { st with current_step := nm }
        let evs := evs ++ [GEvent.state_changed]
        let (st, success) := execStepEffect env i (j + 1) st
        if !success || st.should_stop_now then
          ({ st with should_stop_now := true }, lastJ, evs, .broke)
        else
          let st := update_progress st i (j + 1) endingSlice numSteps
          let evs := evs ++ [GEvent.state_changed]
          if st.should_stop_step then (st, lastJ, evs, .broke)
          else
            runInnerLoop env names startingSlice startingIdx endingSlice numSteps i
              rest st lastJ evs

/-- Exit status of the outer slice loop. -/
inductive OuterRes where
  | completedAll
  | broke
  | interrupted
  | exc (e : PyError)
deriving DecidableEq, Repr

/-- Outer slice loop of `_run_experiment_loop`; `lastI` tracks the loop
variable `i` read unconditionally by the `finally` block. -/
def runOuterLoop (env : LoopEnv) (names : List Str) (startingSlice : Int)
    (startingIdx : Nat) (endingSlice : Int) (numSteps : Nat) :
    List Int → ExperimentState → Option Int → Option Nat → List GEvent →
      ExperimentState × Option Int × Option Nat × List GEvent × OuterRes
  | [], st, lastI, lastJ, evs => (st, lastI, lastJ, evs, .completedAll)
  | i :: rest, st, _, lastJ, evs =>
    let lastI := some i
    if st.should_stop_now then (st, lastI, lastJ, evs, .interrupted)
    else
      let st := { st with current_slice := i }
      let evs := evs ++ [GEvent.state_changed]
      match runInnerLoop env names startingSlice startingIdx endingSlice numSteps i
          (List.range numSteps) st lastJ evs with
      | (st, lastJ, evs, .interrupted) => (st, lastI, lastJ, evs, .interrupted)
      | (st, lastJ, evs, .exc e) => (st, lastI, lastJ, evs, .exc e)
      | (st, lastJ, evs, _) =>
        if st.should_stop_step || st.should_stop_slice || st.should_stop_now then
          (st, lastI, lastJ, evs, .broke)
        else
          -- timing stats: `_slice_times.append(...)` then
          -- `_update_timing_stats` (non-empty, so it fires `state_changed`)
          let evs := evs ++ [GEvent.state_changed]
          runOuterLoop env names startingSlice startingIdx endingSlice numSteps
            rest st lastI lastJ evs

/-- `_cleanup_experiment`: retraction (external, wrapped in `try/except`),
flag clearing, and either the completed notification or the resume-position
computation; `step_sequence[final_step].name` can raise `IndexError`. -/
def cleanup_experiment (st : ExperimentState) (final_slice : Int)
    (final_step : Nat) (total_steps : Nat) (names : List Str) :
    ExperimentState × List GEvent × Option PyError :=
  let is_step_completed := !st.should_stop_now
  let st := { st with
    is_running := false
    should_stop_step := false
    should_stop_slice := false
    should_stop_now := false }
  if final_slice = st.total_slices ∧ (final_step : Int) = (total_steps : Int) - 1 then
    (st, [GEvent.experiment_completed], none)
  else
    let fs :=
      if is_step_completed then
        (if (final_step : Int) + 1 < (total_steps : Int) then
          (final_slice, final_step + 1)
        else (final_slice + 1, 0))
      else (final_slice, final_step)
    match names.get? fs.2 with
    | some nm => (st, [GEvent.experiment_stopped fs.1 nm], none)
    | none => (st, [], some .indexError)

/-- `_run_experiment_loop`: the slice/step loop in a
`try/except KeyboardInterrupt/finally` block.  The `finally` cleanup reads
`i` (raising `NameError` when the slice loop never ran) and `j` via the
`"j" in locals()` guard; an exception raised inside `finally` replaces the
in-flight one. -/
def runExperimentLoop (env : LoopEnv) (names : List Str) (startingSlice : Int)
    (startingIdx : Nat) (st0 : ExperimentState) :
    ExperimentState × List GEvent × Option PyError :=
  let endingSlice := st0.total_slices
  let numSteps := st0.total_steps
  match runOuterLoop env names startingSlice startingIdx endingSlice numSteps
      (intRange startingSlice (endingSlice + 1)) st0 none none [] with
  | (st, lastI, lastJ, evs, res) =>
    let evs :=
      match res with
      | .interrupted => evs ++ [GEvent.experiment_interrupted]
      | _ => evs
    match lastI with
    | none => (st, evs, some (.nameError "i"))
    | some i =>
      match cleanup_experiment st i (lastJ.getD 0) numSteps names with
      | (st, cevs, some e') => (st, evs ++ cevs, some e')
      | (st, cevs, none) =>
        match res with
        | .exc e => (st, evs ++ cevs, some e)
        | _ => (st, evs ++ cevs, none)

/-! ## `ExperimentController.validate_config` / `start_experiment`

`tbt.ExperimentSettings` comes from the external workflow engine; only the
fields the controller reads are modelled.  `workflow.setup_experiment` is an
environment parameter (`setup`): the theorems hold for every behaviour of
it.  Thread launch (`StoppableThread(...).start()`) is recorded as data in
`launched` rather than executed. -/

structure Settings where
  max_slice_number : Int
  step_count : Nat
  step_names : List Str
  enable_EBSD : Bool
  enable_EDS : Bool
deriving DecidableEq, Repr

structure ExperimentController where
  config_path : Option String
  state : ExperimentState
deriving DecidableEq, Repr

/-- `validate_config`: `(is_valid, experiment_settings, error_message)`;
the settings component is `some` exactly when the first component is true. -/
def validate_config (setup : String → Except String Settings)
    (c : ExperimentController) : Bool × Option Settings × Option String :=
  match c.config_path with
  | none => (false, none, some "No configuration file loaded")
  | some path =>
    match setup path with
    | .ok s => (true, some s, none)
    | .error e => (false, none, some ("Validation failed: " ++ e))

/-- `_check_detector_warning` fires `detector_warning` unless both detector
modalities are enabled. -/
def detectorWarningEvents (s : Settings) : List GEvent :=
  if !s.enable_EBSD || !s.enable_EDS then [GEvent.detector_warning] else []

structure StartResult where
  ctrl : ExperimentController
  events : List GEvent
  launched : Option (Int × Nat × List Str)
  outcome : Except PyError Bool
deriving Repr

/-- `start_experiment`.  Note the order of effects on the success path: the
state is replaced (with `is_running=True`) *before* `step_names.index(
starting_step)`, which raises `ValueError` for an unknown step name; the
detector check and the `experiment_started` notification come after, and
the worker thread is launched last. -/
def start_experiment (setup : String → Except String Settings)
    (c : ExperimentController) (startingSlice : Int)
    (startingStep : Option Str) : StartResult :=
  if c.state.is_running then
    ⟨c, [GEvent.error_event "Experiment is already running"], none, .ok false⟩
  else
    match validate_config setup c with
    | (_, none, err) =>
      ⟨c, [GEvent.validation_failed (err.getD "")], none, .ok false⟩
    | (_, some es, _) =>
      let st : ExperimentState :=
        { ExperimentState.initial with
            current_slice := startingSlice
            total_slices := es.max_slice_number
            total_steps := es.step_count
            is_running := true }
      let c := { c with state := st }
      let step_names := es.step_names
      match startingStep with
      | none =>
        let evs := detectorWarningEvents es ++
          [GEvent.experiment_started startingSlice 0]
        ⟨c, evs, some (startingSlice, 0, step_names), .ok true⟩
      | some nm =>
        match step_names.indexOf? nm with
        | none =>
          ⟨c, [], none, .error (.valueError "starting_step is not in step_names")⟩
        | some idx =>
          let evs := detectorWarningEvents es ++
            [GEvent.experiment_started startingSlice idx]
          ⟨c, evs, some (startingSlice, idx, step_names), .ok true⟩

/-! ## Editor controller (`editor_controller.py`)

`EditorController` wraps an optional `PipelineConfig`, the selection index
and a version; the validator object holds no state the modelled methods
read, so it is represented by its method table alone. -/

structure EditorCtrl where
  pipeline : Option PipelineConfig
  current_step_index : Int
  version : ℚ
deriving DecidableEq, Repr

/-- The methods defined by `class ConfigValidator` in `validator.py`
(transcribed from the class body).  There is no `set_version` among them. -/
def configValidatorMethods : List String :=
  ["__init__", "validate_general", "validate_step", "validate_full_pipeline",
   "validate_pipeline_model", "check_duplicate_names", "check_has_steps",
   "validate_pipeline_structure", "get_summary"]

/-- CPython attribute lookup `self.validator.set_version`: `AttributeError`
when the class defines no such method. -/
def callValidatorSetVersion : Except PyError Unit :=
  if "set_version" ∈ configValidatorMethods then .ok ()
  else .error (.attributeError "ConfigValidator" "set_version")

/-- `EditorController.set_version`: assigns `self._version`, then calls
`self.validator.set_version(...)` — which raises `AttributeError` since
`ConfigValidator` defines no `set_version` — and would then call
`self.pipeline.set_version(version)`, a method `PipelineConfig` does not
define either (transcribe `pipeline_model.py`: its methods are `create_new`,
`_update_step_count`, `_populate_default_parameters`, `add_step`,
`remove_step`, `move_step`, `duplicate_step`, `get_step`,
`get_step_by_name`, `get_step_count`, `validate_step_names`, `from_yaml`,
`to_yaml`, `to_dict`). -/
def editor_set_version (c : EditorCtrl) (v : ℚ) :
    EditorCtrl × List GEvent × Except PyError Unit :=
  let c := { c with version := v }
  match callValidatorSetVersion with
  | .error e => (c, [], .error e)
  | .ok _ =>
    match c.pipeline with
    | some _ => (c, [], .error (.attributeError "PipelineConfig" "set_version"))
    | none => (c, [], .ok ())

/-- Keyword parameters accepted by `StepConfig.get_all_params`
(pipeline_model.py:137: `def get_all_params(self)` — none). -/
def getAllParamsKeywords : List String := []

/-- CPython call `step.get_all_params(**kwargs)`: `TypeError` on any keyword
the signature does not accept; otherwise a (deep)copy of the parameters. -/
def callGetAllParams (s : StepConfig) (kwargs : List String) :
    Except PyError (List (Str × Str)) :=
  if kwargs.all (fun k => decide (k ∈ getAllParamsKeywords)) then .ok s.parameters
  else .error (.typeError "get_all_params() got an unexpected keyword argument")

/-- `EditorController.validate_step`.  `rest` abstracts everything after the
first `get_all_params(flat=False)` call (validator and `pytribeam.factory`
calls, a module outside the GUI sources); it is unreachable because that
call raises `TypeError` first. -/
def editor_validate_step
    (rest : List (Str × Str) → Int → Except PyError (Bool × String))
    (c : EditorCtrl) (index : Int) : Except PyError (Bool × String) :=
  match c.pipeline with
  | none => .ok (false, "No pipeline loaded")
  | some p =>
    match callGetAllParams p.general ["flat"] with
    | .error e => .error e
    | .ok db => rest db index

/-- `EditorController.validate_general`: no `None` check at all —
`self.pipeline.general` raises `AttributeError` when no pipeline is loaded;
with a pipeline, the `get_all_params(flat=False)` call raises `TypeError`. -/
def editor_validate_general
    (rest : List (Str × Str) → Except PyError (Bool × String))
    (c : EditorCtrl) : Except PyError (Bool × String) :=
  match c.pipeline with
  | none => .error (.attributeError "NoneType" "general")
  | some p =>
    match callGetAllParams p.general ["flat"] with
    | .error e => .error e
    | .ok db => rest db

/-- String-keyed dict lookup (callback registries are keyed by event name). -/
def slookup {α : Type} (k : String) : List (String × α) → Option α
  | [] => none
  | (k', v) :: tl => if k' = k then some v else slookup k tl

/-- `EditorController._notify` (editor_controller.py:56).  A registry entry
carries the outcome of invoking that callback with the event's arguments.
`except Exception` catches every `Exception` subclass; an exception deriving
only `BaseException` (such as `KeyboardInterrupt`) propagates. -/
def editor_notify (callbacks : List (String × Except PyError Unit))
    (event : String) : Except PyError Unit :=
  match slookup event callbacks with
  | none => .ok ()
  | some (.ok _) => .ok ()
  | some (.error e) => if e.isExceptionClass then .ok () else .error e

/-- `ExperimentController._notify` (experiment_controller.py:95): the same
guarded dispatch as `editor_notify`, at its own source site. -/
def runner_notify (callbacks : List (String × Except PyError Unit))
    (event : String) : Except PyError Unit :=
  match slookup event callbacks with
  | none => .ok ()
  | some (.ok _) => .ok ()
  | some (.error e) => if e.isExceptionClass then .ok () else .error e

/-! ## Concrete instances used by the claim theorems -/

/-- Degenerate LUT-defaults environment (fields irrelevant to the claims). -/
def noDefaults : Str → List (Str × Str) := fun _ => []

/-- Spec scenario: two image steps, duplicate the first, remove the second. -/
def c4Ops : List POp :=
  [.add "image".toList none, .add "image".toList none, .dup 1, .remove 2]

/-- Three pipeline steps, then the invariant-breaking call
`move_step(-1, 2)` (a negative index that CPython wraps from the end). -/
def c1CtrOps : List POp :=
  [.add "image".toList none, .add "fib".toList none, .add "laser".toList none]

/-- An in-domain operation sequence for the C1 witness. -/
def c1WitnessOps : List POp :=
  [.add "image".toList none, .add "fib".toList none, .move 2 (-1)]

/-- One-step pipeline used by the C8 artifacts. -/
def c8P : PipelineConfig :=
  applyOps noDefaults (create_new noDefaults 1) [.add "image".toList none]

/-- Loop environment of the spec's stop-after-step scenario: every step
succeeds, and `should_stop_step` is set while slice 1, step 2 executes. -/
def c6Env : LoopEnv :=
  { stepSuccess := fun _ _ => true
    stopStepDuring := fun i j => i = 1 ∧ j = 2
    stopSliceDuring := fun _ _ => false
    stopNowDuring := fun _ _ => false }

/-- State as `start_experiment` builds it for 2 slices × 2 steps. -/
def c6St0 : ExperimentState :=
  { ExperimentState.initial with
      current_slice := 1
      total_slices := 2
      total_steps := 2
      is_running := true }

def c6Names : List Str := ["s1".toList, "s2".toList]

/-- The run of the scenario: slices 1..2, starting at slice 1, step 0. -/
def c6Run : ExperimentState × List GEvent × Option PyError :=
  runExperimentLoop c6Env c6Names 1 0 c6St0

/-- Settings returned by a succeeding `setup_experiment`. -/
def c9Settings : Settings := ⟨2, 2, ["a".toList, "b".toList], true, true⟩

def c9SetupOk : String → Except String Settings := fun _ => .ok c9Settings

def c9CtrlIdle : ExperimentController := ⟨some "cfg", ExperimentState.initial⟩

/-- Start with a `starting_step` name absent from the step sequence. -/
def c9Bad : StartResult :=
  start_experiment c9SetupOk c9CtrlIdle 1 (some "bogus".toList)

/-- A field valid at version 1 and one valid only from version 2. -/
def c3FieldA : LUTField := sampleField "A" .str ⟨1, 2⟩

def c3FieldB : LUTField := sampleField "B" .int ⟨2, 3⟩

/-- Master table: a top-level field plus a nested group whose only field is
invalid at version 1 (so the whole group must be pruned). -/
def c3SampleTables : List (Str × EntryL) :=
  [("image".toList,
    .cons "a".toList (.field c3FieldA)
      (.cons "grp".toList (.sub (.cons "x".toList (.field c3FieldB) .nil)) .nil))]

def c3Result : EntryL := .cons "a".toList (.field c3FieldA) .nil

/-- Callback registry whose only callback raises a `ValueError`. -/
def c10CbsExc : List (String × Except PyError Unit) :=
  [("ev", .error (.valueError "boom"))]

/-- Callback registry whose only callback raises `KeyboardInterrupt`
(a `BaseException` that `except Exception` does not catch). -/
def c10CbsKI : List (String × Except PyError Unit) :=
  [("ev", .error .keyboardInterrupt)]

/-! ## Basic lemmas about the dict model -/

theorem dinsert_fresh {α : Type} (k : Str) (v : α) :
    ∀ d : List (Str × α), k ∉ d.map Prod.fst → dinsert k v d = d ++ [(k, v)] := by
  intro d
  induction d with
  | nil => intro _; rfl
  | cons hd tl ih =>
    obtain ⟨k', v'⟩ := hd
    intro h
    simp only [List.map_cons, List.mem_cons] at h
    push_neg at h
    have hne : ¬ k' = k := fun he => h.1 he.symm
    simp only [dinsert, if_neg hne, List.cons_append, ih h.2]

theorem dupdate_append {α : Type} :
    ∀ (d2 d : List (Str × α)), (d2.map Prod.fst).Nodup →
      (∀ k, k ∈ d2.map Prod.fst → k ∉ d.map Prod.fst) →
      dupdate d d2 = d ++ d2 := by
  intro d2
  induction d2 with
  | nil => intro d _ _; simp [dupdate]
  | cons hd tl ih =>
    obtain ⟨k', v'⟩ := hd
    intro d hnd hdisj
    simp only [List.map_cons, List.nodup_cons] at hnd
    have hfresh : k' ∉ d.map Prod.fst :=
      hdisj k' (List.mem_cons_self _ _)
    have step : dupdate d ((k', v') :: tl) = dupdate (d ++ [(k', v')]) tl := by
      simp only [dupdate, List.foldl_cons]
      rw [dinsert_fresh k' v' d hfresh]
    have hdisj2 : ∀ k, k ∈ tl.map Prod.fst → k ∉ (d ++ [(k', v')]).map Prod.fst := by
      intro k hk
      simp only [List.map_append, List.mem_append, List.map_cons, List.map_nil,
        List.mem_singleton]
      rintro (hkd | hkd)
      · exact hdisj k (by simp [hk]) hkd
      · subst hkd
        exact hnd.1 hk
    rw [step, ih (d ++ [(k', v')]) hnd.2 hdisj2]
    simp

/-! ## Single-motive induction principles for the mutual tree type -/

/-- Induction on a level list alone (entries left untouched). -/
theorem EntryL.inductionOn {motive : EntryL → Prop} (l : EntryL)
    (hnil : motive .nil)
    (hcons : ∀ k e tl, motive tl → motive (.cons k e tl)) : motive l :=
  @EntryL.rec (fun _ => True) motive (fun _ => trivial) (fun _ _ => trivial)
    hnil (fun k e tl _ htl => hcons k e tl htl) l

/-! ## Basic lemmas about `EntryL` as a dict -/

namespace EntryL

theorem lookupE_eq_none_iff (k : Str) :
    ∀ l : EntryL, l.lookupE k = none ↔ k ∉ l.keys := by
  intro l
  induction l using EntryL.inductionOn with
  | hnil => simp [lookupE, keys]
  | hcons k' e tl ih =>
    by_cases h : k' = k
    · subst h
      simp [lookupE, keys]
    · simp only [lookupE, if_neg h, ih, keys, List.mem_cons]
      constructor
      · rintro hnotin (rfl | hmem)
        · exact h rfl
        · exact hnotin hmem
      · intro hni hmem
        exact hni (Or.inr hmem)

theorem dinsertE_fresh (k : Str) (v : Entry) :
    ∀ l : EntryL, l.lookupE k = none →
      l.dinsertE k v = l.appendL (.cons k v .nil) := by
  intro l
  induction l using EntryL.inductionOn with
  | hnil => intro _; rfl
  | hcons k' e tl ih =>
    intro h
    simp only [lookupE] at h
    by_cases hk : k' = k
    · simp [hk] at h
    · simp only [dinsertE, if_neg hk, appendL, ih (by simpa [hk] using h)]

theorem dinsertE_lookup_self (k : Str) (v : Entry) :
    ∀ l : EntryL, (l.dinsertE k v).lookupE k = some v := by
  intro l
  induction l using EntryL.inductionOn with
  | hnil => simp [dinsertE, lookupE]
  | hcons k' e tl ih =>
    by_cases hk : k' = k
    · simp [dinsertE, hk, lookupE]
    · simp [dinsertE, hk, lookupE, ih]

theorem dinsertE_dinsertE (k : Str) (v w : Entry) :
    ∀ l : EntryL, (l.dinsertE k w).dinsertE k v = l.dinsertE k v := by
  intro l
  induction l using EntryL.inductionOn with
  | hnil => simp [dinsertE]
  | hcons k' e tl ih =>
    by_cases hk : k' = k
    · simp [dinsertE, hk]
    · simp [dinsertE, hk, ih]

theorem dinsertE_lookup_eq (k : Str) (v : Entry) :
    ∀ l : EntryL, l.lookupE k = some v → l.dinsertE k v = l := by
  intro l
  induction l using EntryL.inductionOn with
  | hnil => simp [lookupE]
  | hcons k' e tl ih =>
    intro h
    by_cases hk : k' = k
    · subst hk
      rw [lookupE, if_pos rfl] at h
      obtain rfl := Option.some.inj h
      rw [dinsertE, if_pos rfl]
    · rw [lookupE, if_neg hk] at h
      rw [dinsertE, if_neg hk, ih h]

theorem appendL_assoc :
    ∀ l₁ l₂ l₃ : EntryL, (l₁.appendL l₂).appendL l₃ = l₁.appendL (l₂.appendL l₃) := by
  intro l₁ l₂ l₃
  induction l₁ using EntryL.inductionOn with
  | hnil => rfl
  | hcons k e tl ih => simp [appendL, ih]

theorem nil_appendL (l : EntryL) : EntryL.nil.appendL l = l := rfl

theorem lookupE_appendL (k : Str) :
    ∀ l₁ l₂ : EntryL, l₁.lookupE k = none →
      (l₁.appendL l₂).lookupE k = l₂.lookupE k := by
  intro l₁ l₂
  induction l₁ using EntryL.inductionOn with
  | hnil => intro _; rfl
  | hcons k' e tl ih =>
    intro h
    simp only [lookupE] at h
    by_cases hk : k' = k
    · simp [hk] at h
    · simp only [appendL, lookupE, if_neg hk]
      exact ih (by simpa [hk] using h)

theorem dinsertE_appendL (k : Str) (v : Entry) :
    ∀ l₁ l₂ : EntryL, l₁.lookupE k = none →
      (l₁.appendL l₂).dinsertE k v = l₁.appendL (l₂.dinsertE k v) := by
  intro l₁ l₂
  induction l₁ using EntryL.inductionOn with
  | hnil => intro _; rfl
  | hcons k' e tl ih =>
    intro h
    simp only [lookupE] at h
    by_cases hk : k' = k
    · simp [hk] at h
    · simp only [appendL, dinsertE, if_neg hk]
      rw [ih (by simpa [hk] using h)]

theorem keys_appendL :
    ∀ l₁ l₂ : EntryL, (l₁.appendL l₂).keys = l₁.keys ++ l₂.keys := by
  intro l₁ l₂
  induction l₁ using EntryL.inductionOn with
  | hnil => rfl
  | hcons k e tl ih => simp [appendL, keys, ih]

end EntryL

theorem Entry.esize_pos (e : Entry) : 1 ≤ e.esize := by
  cases e with
  | field f => simp [Entry.esize]
  | sub l => simp [Entry.esize]

/-! ## Lemmas about `splitFirst` / `pySplit` -/

theorem splitFirst_post_length (c0 : Char) (sep' : Str) :
    ∀ s pre post, splitFirst (c0 :: sep') s = some (pre, post) →
      post.length < s.length := by
  intro s
  induction s with
  | nil =>
    intro pre post h
    simp [splitFirst, List.isPrefixOf] at h
  | cons x tl ih =>
    intro pre post h
    simp only [splitFirst] at h
    by_cases hp : (c0 :: sep').isPrefixOf (x :: tl) = true
    · rw [if_pos hp] at h
      obtain ⟨h1, h2⟩ := Prod.mk.injEq .. ▸ Option.some.inj h
      subst h2
      simp only [List.length_cons, List.length_drop]
      omega
    · rw [if_neg hp] at h
      cases hsf : splitFirst (c0 :: sep') tl with
      | none => rw [hsf] at h; exact absurd h (by simp)
      | some pp =>
        obtain ⟨pre', post'⟩ := pp
        rw [hsf] at h
        obtain ⟨h1, h2⟩ := Prod.mk.injEq .. ▸ Option.some.inj h
        subst h2
        exact Nat.lt_trans (ih pre' post' hsf) (by simp)

theorem splitFirst_none_single (c : Char) :
    ∀ a : Str, c ∉ a → splitFirst [c] a = none := by
  intro a
  induction a with
  | nil => intro _; rfl
  | cons x tl ih =>
    intro h
    simp only [List.mem_cons] at h
    push_neg at h
    have hx : ¬ ([c].isPrefixOf (x :: tl) = true) := by
      simp [List.isPrefixOf]
      intro he
      exact h.1 he
    simp only [splitFirst, if_neg hx, ih h.2]

theorem splitFirst_append_single (c : Char) :
    ∀ (a b : Str), c ∉ a → splitFirst [c] (a ++ c :: b) = some (a, b) := by
  intro a
  induction a with
  | nil =>
    intro b _
    simp [splitFirst, List.isPrefixOf]
  | cons x tl ih =>
    intro b h
    simp only [List.mem_cons] at h
    push_neg at h
    have hx : ¬ ([c].isPrefixOf (x :: (tl ++ c :: b)) = true) := by
      simp [List.isPrefixOf]
      intro he
      exact h.1 he
    simp only [List.cons_append, splitFirst, List.append_eq, if_neg hx, ih b h.2]

theorem pySplitCore_fuel_irrel (c0 : Char) (sep' : Str) :
    ∀ fuel₁ fuel₂ s, s.length < fuel₁ → s.length < fuel₂ →
      pySplitCore (c0 :: sep') fuel₁ s = pySplitCore (c0 :: sep') fuel₂ s := by
  intro fuel₁
  induction fuel₁ with
  | zero => intro fuel₂ s h₁ _; omega
  | succ f₁ ih =>
    intro fuel₂ s h₁ h₂
    cases fuel₂ with
    | zero => omega
    | succ f₂ =>
      simp only [pySplitCore]
      cases hsf : splitFirst (c0 :: sep') s with
      | none => rfl
      | some pp =>
        obtain ⟨pre, post⟩ := pp
        have hlen := splitFirst_post_length c0 sep' s pre post hsf
        exact congrArg (pre :: ·) (ih f₂ post (by omega) (by omega))

theorem pySplit_no_sep (c : Char) (a : Str) (h : c ∉ a) : pySplit [c] a = [a] := by
  simp only [pySplit, pySplitCore, splitFirst_none_single c a h]

theorem pySplit_append_single (c : Char) (a b : Str) (h : c ∉ a) :
    pySplit [c] (a ++ c :: b) = a :: pySplit [c] b := by
  simp only [pySplit, pySplitCore, splitFirst_append_single c a b h]
  refine congrArg (a :: ·) ?_
  exact pySplitCore_fuel_irrel c [] (a ++ c :: b).length (b.length + 1) b
    (by simp only [List.length_append, List.length_cons]; omega) (by omega)

theorem pySplitCore_ne_nil (sep : Str) :
    ∀ fuel s, pySplitCore sep fuel s ≠ [] := by
  intro fuel s
  cases fuel with
  | zero => simp [pySplitCore]
  | succ f =>
    simp only [pySplitCore]
    cases splitFirst sep s with
    | none => simp
    | some pp => obtain ⟨pre, post⟩ := pp; simp

theorem pySplit_ne_nil (sep s : Str) : pySplit sep s ≠ [] :=
  pySplitCore_ne_nil sep _ s

mutual
theorem flatSpecE_factor (sep path : Str) (e : Entry) :
    flatSpecE sep path e = (flatSpecE sep [] e).map (fun pf => (path ++ pf.1, pf.2)) := by
  cases e with
  | field f => simp [flatSpecE]
  | sub l =>
    rw [flatSpecE, flatSpecE, flatSpecL_factor sep (path ++ sep) l,
      flatSpecL_factor sep ([] ++ sep) l]
    simp [List.map_map, Function.comp, List.append_assoc]
termination_by 2 * e.esize
decreasing_by all_goals (simp only [Entry.esize, EntryL.lsize]; omega)
theorem flatSpecL_factor (sep pfx : Str) (l : EntryL) :
    flatSpecL sep pfx l = (flatSpecL sep [] l).map (fun pf => (pfx ++ pf.1, pf.2)) := by
  cases l with
  | nil => simp [flatSpecL]
  | cons k e tl =>
    rw [flatSpecL, flatSpecL, flatSpecE_factor sep (pfx ++ k) e,
      flatSpecE_factor sep ([] ++ k) e, flatSpecL_factor sep pfx tl]
    simp [List.map_map, Function.comp, List.append_assoc]
termination_by 2 * l.lsize + 1
decreasing_by
  all_goals simp only [Entry.esize, EntryL.lsize]
  all_goals (have he := Entry.esize_pos e; omega)
end

/-! ## Path discrimination for separator-free keys -/

theorem contains_eq_false_iff {α : Type} [BEq α] [LawfulBEq α] (c : α) (k : List α) :
    (k.contains c = false) ↔ c ∉ k := by
  induction k with
  | nil => simp
  | cons x tl ih =>
    rw [List.contains_cons]
    by_cases hx : c = x
    · subst hx
      simp
    · simp only [List.mem_cons, beq_iff_eq, hx, false_or, Bool.or_eq_false_iff]
      simp [ih, hx]

theorem append_sep_inj (c : Char) :
    ∀ (k k' r r' : Str), c ∉ k → c ∉ k' →
      k ++ c :: r = k' ++ c :: r' → k = k' ∧ r = r' := by
  intro k
  induction k with
  | nil =>
    intro k' r r' _ hk' heq
    cases k' with
    | nil => simpa using heq
    | cons y ys =>
      exfalso
      simp only [List.nil_append, List.cons_append, List.cons.injEq] at heq
      exact hk' (heq.1 ▸ List.mem_cons_self _ _)
  | cons x xs ih =>
    intro k' r r' hk hk' heq
    cases k' with
    | nil =>
      exfalso
      simp only [List.nil_append, List.cons_append, List.cons.injEq] at heq
      exact hk (heq.1 ▸ List.mem_cons_self _ _)
    | cons y ys =>
      simp only [List.cons_append, List.cons.injEq] at heq
      obtain ⟨rfl, heq2⟩ := heq
      have hxs : c ∉ xs := fun hm => hk (List.mem_cons_of_mem _ hm)
      have hys : c ∉ ys := fun hm => hk' (List.mem_cons_of_mem _ hm)
      obtain ⟨rfl, rfl⟩ := ih ys r r' hxs hys heq2
      exact ⟨rfl, rfl⟩

theorem ne_append_sep (c : Char) (k k' r : Str) (hk : c ∉ k) :
    k ≠ k' ++ c :: r := by
  intro he
  exact hk (he ▸ (List.mem_append.mpr (Or.inr (List.mem_cons_self _ _))))

theorem goodL_cons_iff (c : Char) (k : Str) (e : Entry) (tl : EntryL) :
    goodL c (.cons k e tl) = true ↔
      c ∉ k ∧ k ∉ tl.keys ∧ goodE c e = true ∧ goodL c tl = true := by
  simp only [goodL, Bool.and_eq_true, Bool.not_eq_true']
  rw [contains_eq_false_iff, contains_eq_false_iff]
  tauto

theorem goodE_sub_good (c : Char) (l : EntryL) (h : goodE c (.sub l) = true) :
    goodL c l = true := by
  simp only [goodE, Bool.and_eq_true] at h
  exact h.2

theorem flatSpec_path_shape (c : Char) :
    ∀ l : EntryL, ∀ p ∈ (flatSpecL [c] [] l).map Prod.fst,
      ∃ k r, k ∈ l.keys ∧ (p = k ∨ p = k ++ c :: r) := by
  intro l
  induction l using EntryL.inductionOn with
  | hnil => intro p hp; simp [flatSpecL] at hp
  | hcons k e tl ih =>
    intro p hp
    rw [flatSpecL, List.map_append, List.nil_append] at hp
    rcases List.mem_append.mp hp with hp | hp
    · cases e with
      | field f =>
        simp only [flatSpecE, List.map_cons, List.map_nil, List.mem_singleton] at hp
        exact ⟨k, [], List.mem_cons_self _ _, Or.inl hp⟩
      | sub sl =>
        rw [flatSpecE, flatSpecL_factor, List.map_map] at hp
        obtain ⟨q, _, rfl⟩ := List.mem_map.mp hp
        refine ⟨k, q.1, List.mem_cons_self _ _, Or.inr ?_⟩
        simp
    · obtain ⟨k', r', hk', hshape⟩ := ih p hp
      exact ⟨k', r', List.mem_cons_of_mem _ hk', hshape⟩

theorem goodL_keys_sep_free (c : Char) :
    ∀ l : EntryL, goodL c l = true → ∀ k ∈ l.keys, c ∉ k := by
  intro l
  induction l using EntryL.inductionOn with
  | hnil => intro _ k hk; simp [EntryL.keys] at hk
  | hcons k' e tl ih =>
    intro hg k hk
    obtain ⟨hck', _, _, hgtl⟩ := (goodL_cons_iff c k' e tl).mp hg
    rcases List.mem_cons.mp hk with rfl | hk
    · exact hck'
    · exact ih hgtl k hk

theorem flatSpec_paths_nodup_fuel (c : Char) :
    ∀ (n : Nat) (l : EntryL), l.lsize < n → goodL c l = true →
      ((flatSpecL [c] [] l).map Prod.fst).Nodup := by
  intro n
  induction n with
  | zero => intro l h; omega
  | succ n ih =>
    intro l hn hg
    cases l with
    | nil => simp [flatSpecL]
    | cons k e tl =>
      obtain ⟨hck, hktl, hge, hgtl⟩ := (goodL_cons_iff c k e tl).mp hg
      have hsz : Entry.esize e + tl.lsize < n + 1 := by
        simpa [EntryL.lsize] using hn
      have hepos := Entry.esize_pos e
      rw [flatSpecL, List.map_append, List.nil_append, List.nodup_append]
      refine ⟨?_, ih tl (by omega) hgtl, ?_⟩
      · cases e with
        | field f => simp [flatSpecE]
        | sub sl =>
          rw [flatSpecE, flatSpecL_factor, List.map_map]
          have hinj : Function.Injective (fun q : Str => (k ++ [c]) ++ q) := by
            intro q q' hq
            exact List.append_cancel_left hq
          have hslsz : sl.lsize < n := by
            simp only [Entry.esize] at hsz
            omega
          have hbase := ih sl hslsz (goodE_sub_good c sl hge)
          have hcomp : (Prod.fst ∘ fun pf : Str × LUTField => ((k ++ [c]) ++ pf.1, pf.2)) =
              (fun q : Str => (k ++ [c]) ++ q) ∘ Prod.fst := rfl
          rw [hcomp, ← List.map_map]
          exact hbase.map hinj
      · intro p hp hp'
        obtain ⟨k', r', hk', hshape'⟩ := flatSpec_path_shape c tl p hp'
        have hkk' : k ≠ k' := fun he => hktl (he ▸ hk')
        have hck' : c ∉ k' := goodL_keys_sep_free c tl hgtl k' hk'
        cases e with
        | field f =>
          simp only [flatSpecE, List.map_cons, List.map_nil, List.mem_singleton] at hp
          subst hp
          rcases hshape' with rfl | heq
          · exact hkk' rfl
          · exact ne_append_sep c p k' r' hck heq
        | sub sl =>
          rw [flatSpecE, flatSpecL_factor, List.map_map] at hp
          obtain ⟨q, _, hq⟩ := List.mem_map.mp hp
          have hrepr : p = k ++ c :: q.1 := by
            rw [← hq]
            simp
          rcases hshape' with rfl | heq
          · exact ne_append_sep c p k q.1 hck' hrepr
          · rw [hrepr] at heq
            exact hkk' (append_sep_inj c k k' q.1 r' hck hck' heq).1

theorem flatSpec_paths_nodup (c : Char) (l : EntryL) (hg : goodL c l = true) :
    ((flatSpecL [c] [] l).map Prod.fst).Nodup :=
  flatSpec_paths_nodup_fuel c (l.lsize + 1) l (by omega) hg

theorem flatten_spec_fuel (sep : Str) :
    ∀ (n : Nat) (l : EntryL) (pfx : Str) (acc : List (Str × LUTField)),
      l.lsize < n →
      ((acc.map Prod.fst) ++ (flatSpecL sep pfx l).map Prod.fst).Nodup →
      flattenL sep pfx l acc = acc ++ flatSpecL sep pfx l := by
  intro n
  induction n with
  | zero => intro l pfx acc h; omega
  | succ n ih =>
    intro l pfx acc hn hnd
    cases l with
    | nil => simp [flattenL, flatSpecL]
    | cons k e tl =>
      have hsz : Entry.esize e + tl.lsize < n + 1 := by
        simpa [EntryL.lsize] using hn
      have hepos := Entry.esize_pos e
      rw [flatSpecL, List.map_append] at hnd
      obtain ⟨hA, hET, hdAET⟩ := List.nodup_append.mp hnd
      have hchunk : flattenE sep (pfx ++ k) e acc =
          acc ++ flatSpecE sep (pfx ++ k) e := by
        cases e with
        | field f =>
          rw [flattenE, flatSpecE]
          refine dinsert_fresh (pfx ++ k) f acc ?_
          intro hmem
          refine hdAET hmem (List.mem_append_left _ ?_)
          simp [flatSpecE]
        | sub sl =>
          rw [flattenE, flatSpecE]
          have hslsz : sl.lsize < n := by
            simp only [Entry.esize] at hsz
            omega
          have hE := hET.of_append_left
          rw [flatSpecE] at hE
          have inner : flattenL sep (pfx ++ k ++ sep) sl [] =
              [] ++ flatSpecL sep (pfx ++ k ++ sep) sl := by
            refine ih sl (pfx ++ k ++ sep) [] hslsz ?_
            rw [List.map_nil, List.nil_append]
            exact hE
          rw [inner, List.nil_append]
          refine dupdate_append _ acc hE ?_
          intro key hkE hkA
          refine hdAET hkA (List.mem_append_left _ ?_)
          rw [flatSpecE]
          exact hkE
      rw [flattenL, hchunk, flatSpecL]
      have htlsz : tl.lsize < n := by omega
      rw [ih tl pfx (acc ++ flatSpecE sep (pfx ++ k) e) htlsz ?hnd2]
      · rw [List.append_assoc]
      case hnd2 =>
        rw [List.map_append, List.append_assoc]
        exact hnd

/-- Under goodness, the in-place `flatten` is plain concatenation. -/
theorem lutFlatten_eq_spec (c : Char) (l : EntryL) (hg : goodL c l = true) :
    lutFlatten [c] l = flatSpecL [c] [] l := by
  rw [lutFlatten, flatten_spec_fuel [c] (l.lsize + 1) l [] [] (by omega) ?h, List.nil_append]
  case h =>
    rw [List.map_nil, List.nil_append]
    exact flatSpec_paths_nodup c l hg

/-! ## Rebuilding lemmas for `unflatten` -/

theorem unflattenPass_single (c : Char) (flat : List (Str × LUTField)) :
    unflattenPass [c] flat = flat.foldlM (insStep c) .nil := by
  rw [unflattenPass]
  congr 1

theorem EntryL.appendL_nil : ∀ l : EntryL, l.appendL .nil = l := by
  intro l
  induction l using EntryL.inductionOn with
  | hnil => rfl
  | hcons k e tl ih => simp [EntryL.appendL, ih]

theorem insertParts_descend (f : LUTField) (k q : Str) (rest : List Str)
    (acc s : EntryL) (h : acc.lookupE k = some (.sub s)) :
    insertParts f (k :: q :: rest) acc =
      match insertParts f (q :: rest) s with
      | .ok s' => .ok (acc.dinsertE k (.sub s'))
      | .error e => .error e := by
  rw [insertParts, h]

theorem insertParts_fresh (f : LUTField) (k q : Str) (rest : List Str)
    (acc : EntryL) (h : acc.lookupE k = none) :
    insertParts f (k :: q :: rest) acc =
      match insertParts f (q :: rest) .nil with
      | .ok t => .ok (acc.dinsertE k (.sub t))
      | .error e => .error e := by
  rw [insertParts, h]

theorem insertParts_field_err (f : LUTField) (k q : Str) (rest : List Str)
    (acc : EntryL) (f0 : LUTField) (h : acc.lookupE k = some (.field f0)) :
    insertParts f (k :: q :: rest) acc =
      .error (.attributeError "LUTField" "_entries") := by
  rw [insertParts, h]

theorem chunk_fold (c : Char) (k : Str) (hck : c ∉ k) :
    ∀ (items : List (Str × LUTField)) (acc s s' : EntryL),
      acc.lookupE k = some (.sub s) →
      items.foldlM (insStep c) s = .ok s' →
      (items.map (fun pf => (k ++ c :: pf.1, pf.2))).foldlM (insStep c) acc
        = .ok (acc.dinsertE k (.sub s')) := by
  intro items
  induction items with
  | nil =>
    intro acc s s' hl hf
    obtain rfl : s = s' := Except.ok.inj hf
    simp only [List.map_nil, List.foldlM_nil]
    rw [EntryL.dinsertE_lookup_eq k (.sub s) acc hl]
    rfl
  | cons hd tl ih =>
    intro acc s s' hl hf
    obtain ⟨p, f⟩ := hd
    rw [List.foldlM_cons] at hf
    cases h1 : insStep c s (p, f) with
    | error e =>
      rw [h1] at hf
      exact absurd hf (by intro hcon; cases hcon)
    | ok s₁ =>
      rw [h1] at hf
      have hrest : tl.foldlM (insStep c) s₁ = .ok s' := hf
      rw [List.map_cons, List.foldlM_cons]
      have hsplit : pySplit [c] (k ++ c :: p) = k :: pySplit [c] p :=
        pySplit_append_single c k p hck
      have hstep : insStep c acc (k ++ c :: p, f) = .ok (acc.dinsertE k (.sub s₁)) := by
        rw [insStep, hsplit]
        cases hq : pySplit [c] p with
        | nil => exact absurd hq (pySplit_ne_nil [c] p)
        | cons q r =>
          rw [insertParts_descend f k q r acc s hl]
          have : insertParts f (q :: r) s = insStep c s (p, f) := by
            rw [insStep, hq]
          rw [this, h1]
      rw [hstep]
      have hl₁ : (acc.dinsertE k (.sub s₁)).lookupE k = some (.sub s₁) :=
        EntryL.dinsertE_lookup_self k (.sub s₁) acc
      have := ih (acc.dinsertE k (.sub s₁)) s₁ s' hl₁ hrest
      rw [show ((Except.ok (acc.dinsertE k (Entry.sub s₁)) :
          Except PyError EntryL) >>= fun b' =>
          (tl.map (fun pf => (k ++ c :: pf.1, pf.2))).foldlM (insStep c) b') =
          (tl.map (fun pf => (k ++ c :: pf.1, pf.2))).foldlM (insStep c)
            (acc.dinsertE k (.sub s₁)) from rfl]
      rw [this, EntryL.dinsertE_dinsertE]

theorem flatSpec_ne_nil (c : Char) :
    ∀ (n : Nat) (l : EntryL) (pfx : Str), l.lsize < n → goodL c l = true →
      l ≠ .nil → flatSpecL [c] pfx l ≠ [] := by
  intro n
  induction n with
  | zero => intro l pfx h; omega
  | succ n ih =>
    intro l pfx hn hg hne
    cases l with
    | nil => exact absurd rfl hne
    | cons k e tl =>
      have hsz : Entry.esize e + tl.lsize < n + 1 := by
        simpa [EntryL.lsize] using hn
      obtain ⟨-, -, hge, -⟩ := (goodL_cons_iff c k e tl).mp hg
      rw [flatSpecL]
      cases e with
      | field f => simp [flatSpecE]
      | sub sl =>
        rw [flatSpecE]
        intro hcon
        rcases List.append_eq_nil.mp hcon with ⟨h1, -⟩
        have hslne : sl ≠ .nil := by
          intro hsl
          rw [hsl] at hge
          simp [goodE, EntryL.isCons] at hge
        have hslsz : sl.lsize < n := by
          simp only [Entry.esize] at hsz
          omega
        exact ih sl (pfx ++ k ++ [c]) hslsz (goodE_sub_good c sl hge) hslne h1

theorem unflat_rebuild_fuel (c : Char) :
    ∀ (n : Nat) (l acc : EntryL), l.lsize < n → goodL c l = true →
      (∀ k, k ∈ l.keys → acc.lookupE k = none) →
      (flatSpecL [c] [] l).foldlM (insStep c) acc = .ok (acc.appendL l) := by
  intro n
  induction n with
  | zero => intro l acc h; omega
  | succ n ih =>
    intro l acc hn hg hfresh
    cases l with
    | nil =>
      rw [flatSpecL, List.foldlM_nil, EntryL.appendL_nil]
      rfl
    | cons k e tl =>
      have hsz : Entry.esize e + tl.lsize < n + 1 := by
        simpa [EntryL.lsize] using hn
      have hepos := Entry.esize_pos e
      have htlsz : tl.lsize < n := by omega
      obtain ⟨hck, hktl, hge, hgtl⟩ := (goodL_cons_iff c k e tl).mp hg
      have hka : acc.lookupE k = none := hfresh k (List.mem_cons_self _ _)
      rw [flatSpecL, List.foldlM_append]
      -- the per-key chunk rebuilds one entry appended at the end of `acc`
      have hstep : (flatSpecE [c] ([] ++ k) e).foldlM (insStep c) acc =
          .ok (acc.appendL (.cons k e .nil)) := by
        cases e with
        | field f =>
          rw [flatSpecE, List.nil_append, List.foldlM_cons]
          have h1 : insStep c acc (k, f) = .ok (acc.dinsertE k (.field f)) := by
            rw [insStep, pySplit_no_sep c k hck, insertParts]
          rw [h1, EntryL.dinsertE_fresh k (.field f) acc hka]
          rfl
        | sub sl =>
          have hslsz : sl.lsize < n := by
            simp only [Entry.esize] at hsz
            omega
          have hslg : goodL c sl = true := goodE_sub_good c sl hge
          have hslne : sl ≠ .nil := by
            intro hsl
            rw [hsl] at hge
            simp [goodE, EntryL.isCons] at hge
          rw [flatSpecE, List.nil_append, flatSpecL_factor]
          have hmapeq : (fun pf : Str × LUTField => (k ++ [c] ++ pf.1, pf.2)) =
              (fun pf : Str × LUTField => (k ++ c :: pf.1, pf.2)) := by
            funext pf
            simp
          rw [hmapeq]
          have hinner : (flatSpecL [c] [] sl).foldlM (insStep c) .nil = .ok sl := by
            have := ih sl .nil hslsz hslg (fun k' _ => rfl)
            rwa [EntryL.nil_appendL] at this
          cases hbase : flatSpecL [c] [] sl with
          | nil =>
            exact absurd hbase
              (flatSpec_ne_nil c (sl.lsize + 1) sl [] (by omega) hslg hslne)
          | cons pf₀ items =>
            obtain ⟨p₀, f₀⟩ := pf₀
            rw [hbase, List.foldlM_cons] at hinner
            cases h0 : insStep c .nil (p₀, f₀) with
            | error e0 =>
              rw [h0] at hinner
              exact absurd hinner (by intro hcon; cases hcon)
            | ok t₀ =>
              rw [h0] at hinner
              have hrest : items.foldlM (insStep c) t₀ = .ok sl := hinner
              rw [List.map_cons, List.foldlM_cons]
              have hfirst : insStep c acc (k ++ c :: p₀, f₀) =
                  .ok (acc.dinsertE k (.sub t₀)) := by
                rw [insStep, pySplit_append_single c k p₀ hck]
                cases hq : pySplit [c] p₀ with
                | nil => exact absurd hq (pySplit_ne_nil [c] p₀)
                | cons q r =>
                  rw [insertParts_fresh f₀ k q r acc hka]
                  have : insertParts f₀ (q :: r) .nil = insStep c .nil (p₀, f₀) := by
                    rw [insStep, hq]
                  rw [this, h0]
              rw [hfirst]
              have hl₁ : (acc.dinsertE k (.sub t₀)).lookupE k = some (.sub t₀) :=
                EntryL.dinsertE_lookup_self k (.sub t₀) acc
              have hchunk := chunk_fold c k hck items
                (acc.dinsertE k (.sub t₀)) t₀ sl hl₁ hrest
              rw [show ((Except.ok (acc.dinsertE k (Entry.sub t₀)) :
                  Except PyError EntryL) >>= fun b' =>
                  (items.map (fun pf => (k ++ c :: pf.1, pf.2))).foldlM (insStep c) b') =
                  (items.map (fun pf => (k ++ c :: pf.1, pf.2))).foldlM (insStep c)
                    (acc.dinsertE k (.sub t₀)) from rfl]
              rw [hchunk, EntryL.dinsertE_dinsertE,
                EntryL.dinsertE_fresh k (.sub sl) acc hka]
      rw [hstep]
      rw [show ((Except.ok (acc.appendL (.cons k e .nil)) :
          Except PyError EntryL) >>= fun b' =>
          (flatSpecL [c] [] tl).foldlM (insStep c) b') =
          (flatSpecL [c] [] tl).foldlM (insStep c)
            (acc.appendL (.cons k e .nil)) from rfl]
      have hfresh2 : ∀ k', k' ∈ tl.keys →
          (acc.appendL (.cons k e .nil)).lookupE k' = none := by
        intro k' hk'
        have hkk' : ¬ k = k' := fun he => hktl (he ▸ hk')
        rw [EntryL.lookupE_appendL k' acc _ (hfresh k' (List.mem_cons_of_mem _ hk'))]
        simp [EntryL.lookupE, hkk']
      rw [ih tl (acc.appendL (.cons k e .nil)) htlsz hgtl hfresh2,
        EntryL.appendL_assoc]
      rfl

theorem lut_roundtrip_of_good (c : Char) (l : EntryL) (hg : goodL c l = true) :
    roundtrip [c] l = .ok l := by
  rw [roundtrip, lutFlatten_eq_spec c l hg, unflattenPass_single]
  have h := unflat_rebuild_fuel c (l.lsize + 1) l .nil (by omega) hg (fun _ _ => rfl)
  rwa [EntryL.nil_appendL] at h

theorem EntryL.dinsertE_ne_nil (k : Str) (v : Entry) :
    ∀ l : EntryL, l.dinsertE k v ≠ .nil := by
  intro l
  induction l using EntryL.inductionOn with
  | hnil => simp [EntryL.dinsertE]
  | hcons k' e tl ih =>
    rw [EntryL.dinsertE]
    by_cases hk : k' = k
    · simp [hk]
    · simp [hk]

theorem insertParts_ne_nil (f : LUTField) :
    ∀ (parts : List Str) (acc r : EntryL),
      insertParts f parts acc = .ok r → r ≠ .nil := by
  intro parts
  match parts with
  | [] => intro acc r h; cases h
  | [last] =>
    intro acc r h
    rw [insertParts] at h
    obtain rfl := Except.ok.inj h
    exact EntryL.dinsertE_ne_nil last (.field f) acc
  | p :: q :: rest =>
    intro acc r h
    cases hl : acc.lookupE p with
    | none =>
      rw [insertParts_fresh f p q rest acc hl] at h
      cases hsub : insertParts f (q :: rest) .nil with
      | ok subL =>
        rw [hsub] at h
        obtain rfl := Except.ok.inj h
        exact EntryL.dinsertE_ne_nil p (.sub subL) acc
      | error e => rw [hsub] at h; cases h
    | some e0 =>
      cases e0 with
      | field f0 =>
        rw [insertParts_field_err f p q rest acc f0 hl] at h
        cases h
      | sub l0 =>
        rw [insertParts_descend f p q rest acc l0 hl] at h
        cases hsub : insertParts f (q :: rest) l0 with
        | ok l' =>
          rw [hsub] at h
          obtain rfl := Except.ok.inj h
          exact EntryL.dinsertE_ne_nil p (.sub l') acc
        | error e => rw [hsub] at h; cases h

theorem allFieldsValidL_dinsertE (v : ℚ) (k : Str) (e : Entry) :
    ∀ l : EntryL, allFieldsValidL v l = true → allFieldsValidE v e = true →
      allFieldsValidL v (l.dinsertE k e) = true := by
  intro l
  induction l using EntryL.inductionOn with
  | hnil => intro _ he; simp [EntryL.dinsertE, allFieldsValidL, he]
  | hcons k' e' tl ih =>
    intro hl he
    rw [allFieldsValidL, Bool.and_eq_true] at hl
    rw [EntryL.dinsertE]
    by_cases hk : k' = k
    · simp only [if_pos hk, allFieldsValidL, Bool.and_eq_true]
      exact ⟨he, hl.2⟩
    · simp only [if_neg hk, allFieldsValidL, Bool.and_eq_true]
      exact ⟨hl.1, ih hl.2 he⟩

theorem allFieldsValidL_lookupE (v : ℚ) (k : Str) :
    ∀ l : EntryL, allFieldsValidL v l = true → ∀ e, l.lookupE k = some e →
      allFieldsValidE v e = true := by
  intro l
  induction l using EntryL.inductionOn with
  | hnil => intro _ e h; cases h
  | hcons k' e' tl ih =>
    intro hl e h
    rw [allFieldsValidL, Bool.and_eq_true] at hl
    rw [EntryL.lookupE] at h
    by_cases hk : k' = k
    · rw [if_pos hk] at h
      obtain rfl := Option.some.inj h
      exact hl.1
    · rw [if_neg hk] at h
      exact ih hl.2 e h

theorem noEmptyL_dinsertE (k : Str) (e : Entry) :
    ∀ l : EntryL, noEmptyL l = true → noEmptyE e = true →
      noEmptyL (l.dinsertE k e) = true := by
  intro l
  induction l using EntryL.inductionOn with
  | hnil => intro _ he; simp [EntryL.dinsertE, noEmptyL, he]
  | hcons k' e' tl ih =>
    intro hl he
    rw [noEmptyL, Bool.and_eq_true] at hl
    rw [EntryL.dinsertE]
    by_cases hk : k' = k
    · simp only [if_pos hk, noEmptyL, Bool.and_eq_true]
      exact ⟨he, hl.2⟩
    · simp only [if_neg hk, noEmptyL, Bool.and_eq_true]
      exact ⟨hl.1, ih hl.2 he⟩

theorem noEmptyL_lookupE (k : Str) :
    ∀ l : EntryL, noEmptyL l = true → ∀ e, l.lookupE k = some e →
      noEmptyE e = true := by
  intro l
  induction l using EntryL.inductionOn with
  | hnil => intro _ e h; cases h
  | hcons k' e' tl ih =>
    intro hl e h
    rw [noEmptyL, Bool.and_eq_true] at hl
    rw [EntryL.lookupE] at h
    by_cases hk : k' = k
    · rw [if_pos hk] at h
      obtain rfl := Option.some.inj h
      exact hl.1
    · rw [if_neg hk] at h
      exact ih hl.2 e h

theorem isCons_of_ne_nil (l : EntryL) (h : l ≠ .nil) : l.isCons = true := by
  cases l with
  | nil => exact absurd rfl h
  | cons k e tl => rfl

theorem insertParts_preserves (v : ℚ) (f : LUTField)
    (hf : in_interval v f.version = true) :
    ∀ (parts : List Str) (acc r : EntryL),
      allFieldsValidL v acc = true → noEmptyL acc = true →
      insertParts f parts acc = .ok r →
      allFieldsValidL v r = true ∧ noEmptyL r = true := by
  intro parts
  induction parts with
  | nil => intro acc r _ _ h; cases h
  | cons p rest ih =>
    intro acc r hval hne h
    cases rest with
    | nil =>
      rw [insertParts] at h
      obtain rfl := Except.ok.inj h
      exact ⟨allFieldsValidL_dinsertE v p (.field f) acc hval hf,
        noEmptyL_dinsertE p (.field f) acc hne rfl⟩
    | cons q rest' =>
      cases hl : acc.lookupE p with
      | none =>
        rw [insertParts_fresh f p q rest' acc hl] at h
        cases hsub : insertParts f (q :: rest') .nil with
        | error e => rw [hsub] at h; cases h
        | ok subL =>
          rw [hsub] at h
          obtain rfl := Except.ok.inj h
          obtain ⟨hv, hn⟩ := ih .nil subL rfl rfl hsub
          have hnn := insertParts_ne_nil f (q :: rest') .nil subL hsub
          refine ⟨allFieldsValidL_dinsertE v p (.sub subL) acc hval ?_,
            noEmptyL_dinsertE p (.sub subL) acc hne ?_⟩
          · rw [allFieldsValidE]
            exact hv
          · simp only [noEmptyE, Bool.and_eq_true]
            exact ⟨isCons_of_ne_nil subL hnn, hn⟩
      | some e0 =>
        cases e0 with
        | field f0 =>
          rw [insertParts_field_err f p q rest' acc f0 hl] at h
          cases h
        | sub l0 =>
          rw [insertParts_descend f p q rest' acc l0 hl] at h
          cases hsub : insertParts f (q :: rest') l0 with
          | error e => rw [hsub] at h; cases h
          | ok l' =>
            rw [hsub] at h
            obtain rfl := Except.ok.inj h
            have hv0 : allFieldsValidE v (.sub l0) = true :=
              allFieldsValidL_lookupE v p acc hval _ hl
            have hn0 : noEmptyE (.sub l0) = true :=
              noEmptyL_lookupE p acc hne _ hl
            rw [allFieldsValidE] at hv0
            simp only [noEmptyE, Bool.and_eq_true] at hn0
            obtain ⟨hv, hn⟩ := ih l0 l' hv0 hn0.2 hsub
            have hnn := insertParts_ne_nil f (q :: rest') l0 l' hsub
            refine ⟨allFieldsValidL_dinsertE v p (.sub l') acc hval ?_,
              noEmptyL_dinsertE p (.sub l') acc hne ?_⟩
            · rw [allFieldsValidE]
              exact hv
            · simp only [noEmptyE, Bool.and_eq_true]
              exact ⟨isCons_of_ne_nil l' hnn, hn⟩

theorem fold_insStep_preserves (v : ℚ) (c : Char) :
    ∀ (flat : List (Str × LUTField)),
      (∀ pf ∈ flat, in_interval v pf.2.version = true) →
      ∀ (acc r : EntryL), allFieldsValidL v acc = true → noEmptyL acc = true →
        flat.foldlM (insStep c) acc = .ok r →
        allFieldsValidL v r = true ∧ noEmptyL r = true := by
  intro flat
  induction flat with
  | nil =>
    intro _ acc r hv hn h
    obtain rfl := Except.ok.inj h
    exact ⟨hv, hn⟩
  | cons pf tl ih =>
    intro hall acc r hv hn h
    rw [List.foldlM_cons] at h
    cases h1 : insStep c acc pf with
    | error e =>
      rw [h1] at h
      cases h
    | ok acc₁ =>
      rw [h1] at h
      obtain ⟨hv1, hn1⟩ := insertParts_preserves v pf.2
        (hall pf (List.mem_cons_self _ _)) (pySplit [c] pf.1) acc acc₁ hv hn h1
      exact ih (fun x hx => hall x (List.mem_cons_of_mem _ hx)) acc₁ r hv1 hn1 h

theorem get_lut_valid (tables : List (Str × EntryL)) (versions : List ℚ)
    (step_type : Str) (v : ℚ) (r : EntryL)
    (h : get_lut tables versions step_type (some v) = .ok r) :
    allFieldsValidL v r = true ∧ noEmptyL r = true := by
  rw [get_lut] at h
  cases hmax : versions.max? with
  | none => rw [hmax] at h; cases h
  | some dflt =>
    rw [hmax] at h
    simp only [Option.getD_some] at h
    by_cases hc : versions.contains v = true
    · rw [if_pos hc] at h
      cases hlk : dlookup (strLower step_type) tables with
      | none => rw [hlk] at h; cases h
      | some l =>
        simp only [hlk] at h
        rw [unflattenPass_single] at h
        refine fold_insStep_preserves v '/'
          ((lutFlatten ['/'] l).filter (fun pf => in_interval v pf.2.version))
          ?_ .nil r rfl rfl h
        intro pf hpf
        exact (List.mem_filter.mp hpf).2
    · rw [if_neg hc] at h
      cases h

/-! ## Invariant preservation lemmas for the pipeline operations -/

theorem dlookup_dinsert_self {α : Type} (k : Str) (v : α) :
    ∀ d : List (Str × α), dlookup k (dinsert k v d) = some v := by
  intro d
  induction d with
  | nil => simp [dinsert, dlookup]
  | cons hd tl ih =>
    obtain ⟨k', v'⟩ := hd
    by_cases hk : k' = k
    · simp [dinsert, dlookup, hk]
    · simp [dinsert, dlookup, hk, ih]

theorem stepsIndexedB_append (l₁ : List StepConfig) :
    ∀ (l₂ : List StepConfig) (i : Int),
      stepsIndexedB i (l₁ ++ l₂) =
        (stepsIndexedB i l₁ && stepsIndexedB (i + l₁.length) l₂) := by
  induction l₁ with
  | nil => intro l₂ i; simp [stepsIndexedB]
  | cons s tl ih =>
    intro l₂ i
    simp only [List.cons_append, stepsIndexedB, List.append_eq, ih l₂ (i + 1),
      Bool.and_assoc, List.length_cons]
    have harith : i + 1 + (tl.length : Int) = i + ((tl.length : Int) + 1) := by ring
    push_cast
    rw [harith]

theorem stepsIndexedB_reindex :
    ∀ (l : List StepConfig) (i : Nat),
      stepsIndexedB (i : Int) (reindexSteps i l) = true := by
  intro l
  induction l with
  | nil => intro i; rfl
  | cons s tl ih =>
    intro i
    rw [reindexSteps, stepsIndexedB]
    simp only [StepConfig.set_param, Bool.and_eq_true, beq_iff_eq]
    refine ⟨⟨trivial, ?_⟩, ?_⟩
    · rw [dlookup_dinsert_self]
    · have := ih (i + 1)
      push_cast at this ⊢
      exact this

theorem reindexSteps_length :
    ∀ (l : List StepConfig) (i : Nat), (reindexSteps i l).length = l.length := by
  intro l
  induction l with
  | nil => intro i; rfl
  | cons s tl ih => intro i; simp [reindexSteps, ih]

theorem invariant_remove (p : PipelineConfig) (i : Int)
    (h : pipelineInvariant p = true) :
    pipelineInvariant (remove_step p i).1 = true := by
  rw [remove_step]
  by_cases hg : i = 0 ∨ i > (p.steps.length : Int)
  · rw [if_pos hg]
    exact h
  · rw [if_neg hg]
    rw [pipelineInvariant, Bool.and_eq_true, beq_iff_eq]
    constructor
    · simp only [update_step_count, StepConfig.set_param]
      rw [dlookup_dinsert_self]
    · have := stepsIndexedB_reindex (p.steps.filter (fun s => s.index != i)) 1
      push_cast at this
      exact this

theorem invariant_add (defaults : Str → List (Str × Str)) (p : PipelineConfig)
    (st : Str) (nm : Option Str) (h : pipelineInvariant p = true) :
    pipelineInvariant (add_step defaults p st nm).1 = true := by
  rw [pipelineInvariant, Bool.and_eq_true, beq_iff_eq] at h
  obtain ⟨hc, hidx⟩ := h
  simp only [add_step, pipelineInvariant, update_step_count, StepConfig.set_param,
    Bool.and_eq_true, beq_iff_eq]
  constructor
  · rw [dlookup_dinsert_self]
  · rw [stepsIndexedB_append, Bool.and_eq_true]
    refine ⟨hidx, ?_⟩
    rw [stepsIndexedB]
    simp only [Bool.and_eq_true, beq_iff_eq, stepsIndexedB, Bool.and_true]
    have harith : (1 : Int) + (p.steps.length : Int) = (p.steps.length : Int) + 1 := by
      ring
    refine ⟨by omega, ?_⟩
    rw [dlookup_dinsert_self, ← harith]

theorem invariant_dup (defaults : Str → List (Str × Str)) (p : PipelineConfig)
    (i : Int) (h : pipelineInvariant p = true) :
    pipelineInvariant (applyOp defaults p (.dup i)) = true := by
  rw [applyOp]
  cases hd : duplicate_step p i with
  | error e => exact h
  | ok pr =>
    rw [duplicate_step] at hd
    by_cases hg : i = 0 ∨ i > (p.steps.length : Int)
    · rw [if_pos hg] at hd
      obtain rfl := Except.ok.inj hd
      exact h
    · rw [if_neg hg] at hd
      cases hget : pyGet p.steps (i - 1) with
      | error e => rw [hget] at hd; cases hd
      | ok original =>
        simp only [hget] at hd
        obtain rfl := Except.ok.inj hd
        rw [pipelineInvariant, Bool.and_eq_true, beq_iff_eq] at h
        obtain ⟨hc, hidx⟩ := h
        simp only [pipelineInvariant, update_step_count, StepConfig.set_param,
          Bool.and_eq_true, beq_iff_eq]
        constructor
        · rw [dlookup_dinsert_self]
        · rw [stepsIndexedB_append, Bool.and_eq_true]
          refine ⟨hidx, ?_⟩
          rw [stepsIndexedB]
          simp only [Bool.and_eq_true, beq_iff_eq, stepsIndexedB, Bool.and_true]
          have harith : (1 : Int) + (p.steps.length : Int) =
              (p.steps.length : Int) + 1 := by ring
          refine ⟨by omega, ?_⟩
          rw [dlookup_dinsert_self, ← harith]

/-! ## Helper lemmas for CPython list indexing -/

theorem pyIdx_nonneg (len : Nat) (i : Int) (h0 : 0 ≤ i) (h1 : i < (len : Int)) :
    pyIdx len i = some i.toNat := by
  simp [pyIdx, h0, h1]

theorem pyGet_ok {α : Type} (l : List α) (i : Int) (h0 : 0 ≤ i)
    (h1 : i < (l.length : Int)) :
    pyGet l i = .ok (l.get ⟨i.toNat, by omega⟩) := by
  rw [pyGet, pyIdx_nonneg l.length i h0 h1]
  simp only [List.get?_eq_get (by omega : i.toNat < l.length)]

theorem pySet_eq {α : Type} (l : List α) (i : Int) (v : α) (h0 : 0 ≤ i)
    (h1 : i < (l.length : Int)) :
    pySet l i v = l.set i.toNat v := by
  rw [pySet, pyIdx_nonneg l.length i h0 h1]


theorem pyModify_ok {α : Type} (l : List α) (i : Int) (f : α → α) (h0 : 0 ≤ i)
    (h1 : i < (l.length : Int)) :
    pyModify l i f = .ok (l.set i.toNat (f (l.get ⟨i.toNat, by omega⟩))) := by
  simp only [pyModify, pyGet_ok l i h0 h1, pySet_eq l i _ h0 h1]

theorem stepsIndexedB_iff :
    ∀ (l : List StepConfig) (i : Int),
      stepsIndexedB i l = true ↔
        ∀ (j : Nat) (hj : j < l.length),
          (l[j].index = i + j ∧
            dlookup "step_general/step_number".toList l[j].parameters =
              some (pyStr (i + j))) := by
  intro l
  induction l with
  | nil =>
    intro i
    simp [stepsIndexedB]
  | cons s tl ih =>
    intro i
    rw [stepsIndexedB]
    simp only [Bool.and_eq_true, beq_iff_eq, ih (i + 1)]
    constructor
    · rintro ⟨⟨hs, hp⟩, htl⟩ j hj
      cases j with
      | zero =>
        simpa using ⟨hs, hp⟩
      | succ j' =>
        have hj' : j' < tl.length := by simpa using hj
        have := htl j' hj'
        have harith : i + 1 + (j' : Int) = i + ((j' : Int) + 1) := by ring
        rw [harith] at this
        simpa [List.getElem_cons_succ] using this
    · intro hall
      refine ⟨?_, ?_⟩
      · have := hall 0 (by simp)
        simpa using this
      · intro j' hj'
        have := hall (j' + 1) (by simpa using hj')
        have harith : i + ((j' : Int) + 1) = i + 1 + (j' : Int) := by ring
        simp only [List.getElem_cons_succ] at this
        push_cast at this ⊢
        rw [harith] at this
        exact this

set_option maxHeartbeats 3200000 in
theorem invariant_move (defaults : Str → List (Str × Str)) (p : PipelineConfig)
    (index direction : Int) (hdir : direction = 1 ∨ direction = -1)
    (h : pipelineInvariant p = true) :
    pipelineInvariant (applyOp defaults p (.move index direction)) = true := by
  rw [applyOp]
  cases hm : move_step p index direction with
  | error e => exact h
  | ok pr =>
    rw [move_step] at hm
    by_cases hg1 : index = 0 ∨ index > (p.steps.length : Int)
    · rw [if_pos hg1] at hm
      obtain rfl := Except.ok.inj hm
      exact h
    · rw [if_neg hg1] at hm
      simp only at hm
      by_cases hg2 : index + direction < 1 ∨ index + direction > (p.steps.length : Int)
      · rw [if_pos hg2] at hm
        obtain rfl := Except.ok.inj hm
        exact h
      · rw [if_neg hg2] at hm
        push_neg at hg1 hg2
        have hidx1 : (1 : Int) ≤ index := by
          rcases hdir with rfl | rfl <;> omega
        have hlen : index ≤ (p.steps.length : Int) := hg1.2
        have hnew1 : (1 : Int) ≤ index + direction := hg2.1
        have hnew2 : index + direction ≤ (p.steps.length : Int) := hg2.2
        have h0₁ : (0 : Int) ≤ index - 1 := by omega
        have h1₁ : index - 1 < (p.steps.length : Int) := by omega
        have h0₂ : (0 : Int) ≤ index + direction - 1 := by omega
        have h1₂ : index + direction - 1 < (p.steps.length : Int) := by omega
        have hn1len : (index - 1).toNat < p.steps.length := by omega
        have hn2len : (index + direction - 1).toNat < p.steps.length := by omega
        have hne12 : (index - 1).toNat ≠ (index + direction - 1).toNat := by
          rcases hdir with rfl | rfl <;> omega
        simp only [pyGet_ok p.steps (index + direction - 1) h0₂ h1₂,
          pyGet_ok p.steps (index - 1) h0₁ h1₁] at hm
        rw [pySet_eq p.steps (index - 1) _ h0₁ h1₁] at hm
        rw [pySet_eq _ (index + direction - 1) _ h0₂
          (by rw [List.length_set]; exact h1₂)] at hm
        rw [pyModify_ok _ (index - 1) _ h0₁
          (by simp only [List.length_set]; exact h1₁)] at hm
        simp only [bind, Except.bind] at hm
        rw [pyModify_ok _ (index + direction - 1) _ h0₂
          (by simp only [List.length_set]; exact h1₂)] at hm
        simp only [bind, Except.bind] at hm
        rw [pyModify_ok _ (index - 1) _ h0₁
          (by simp only [List.length_set]; exact h1₁)] at hm
        simp only [bind, Except.bind] at hm
        rw [pyModify_ok _ (index + direction - 1) _ h0₂
          (by simp only [List.length_set]; exact h1₂)] at hm
        simp only [bind, Except.bind] at hm
        have hne21 := hne12.symm
        simp only [List.get_eq_getElem, List.getElem_set, hne12, hne21,
          if_true, if_false, ite_true, ite_false] at hm
        show pipelineInvariant pr.1 = true
        obtain rfl := Except.ok.inj hm
        rw [pipelineInvariant, Bool.and_eq_true, beq_iff_eq] at h
        obtain ⟨hc, hidx⟩ := h
        rw [pipelineInvariant, Bool.and_eq_true, beq_iff_eq]
        constructor
        · simp only [List.length_set]
          exact hc
        · rw [stepsIndexedB_iff]
          intro j hj
          simp only [List.length_set] at hj
          by_cases hj1 : j = (index - 1).toNat
          · subst hj1
            rw [List.getElem_set_ne hne12.symm, List.getElem_set_self]
            constructor
            · simp only [StepConfig.set_param]
              omega
            · simp only [StepConfig.set_param]
              rw [dlookup_dinsert_self]
              have harith : (1 : Int) + ((index - 1).toNat : Int) = index := by omega
              rw [harith]
          · by_cases hj2 : j = (index + direction - 1).toNat
            · subst hj2
              rw [List.getElem_set_self]
              constructor
              · simp only [StepConfig.set_param]
                omega
              · simp only [StepConfig.set_param]
                rw [dlookup_dinsert_self]
                have harith : (1 : Int) + ((index + direction - 1).toNat : Int) =
                    index + direction := by omega
                rw [harith]
            · have hne1 : (index - 1).toNat ≠ j := fun he => hj1 he.symm
              have hne2 : (index + direction - 1).toNat ≠ j := fun he => hj2 he.symm
              rw [List.getElem_set_ne hne2, List.getElem_set_ne hne1,
                List.getElem_set_ne hne2, List.getElem_set_ne hne1,
                List.getElem_set_ne hne2, List.getElem_set_ne hne1]
              exact (stepsIndexedB_iff p.steps 1).mp hidx j hj

theorem invariant_applyOps (defaults : Str → List (Str × Str)) :
    ∀ (ops : List POp) (p : PipelineConfig), pipelineInvariant p = true →
      (∀ op ∈ ops, opMoveDirOk op) →
      pipelineInvariant (applyOps defaults p ops) = true := by
  intro ops
  induction ops with
  | nil => intro p h _; exact h
  | cons op tl ih =>
    intro p h hmoves
    rw [applyOps, List.foldl_cons]
    refine ih (applyOp defaults p op) ?_ (fun o ho => hmoves o (List.mem_cons_of_mem _ ho))
    cases op with
    | add st nm => exact invariant_add defaults p st nm h
    | remove i => exact invariant_remove p i h
    | move i d =>
      exact invariant_move defaults p i d
        (by
          have := hmoves (.move i d) (List.mem_cons_self _ _)
          exact this) h
    | dup i => exact invariant_dup defaults p i h

theorem invariant_create_new (defaults : Str → List (Str × Str)) (version : ℚ) :
    pipelineInvariant (create_new defaults version) = true := by
  rw [create_new, pipelineInvariant, Bool.and_eq_true, beq_iff_eq]
  refine ⟨?_, rfl⟩
  rw [dlookup_dinsert_self]
  show some "0".toList = some (pyStr (0 : Int))
  rfl

theorem slookup_mem {α : Type} (k : String) :
    ∀ (l : List (String × α)) (v : α), slookup k l = some v → (k, v) ∈ l := by
  intro l
  induction l with
  | nil => intro v h; cases h
  | cons hd tl ih =>
    intro v h
    rw [slookup] at h
    by_cases hk : hd.1 = k
    · rw [if_pos hk] at h
      obtain rfl := Option.some.inj h
      subst hk
      exact List.mem_cons_self _ _
    · rw [if_neg hk] at h
      exact List.mem_cons_of_mem _ (ih v h)

/-! ## Claim theorems -/

/-- C1 counterexample: starting from a freshly built pipeline, the call
sequence add, add, add, `move_step(-1, 2)` is accepted (the guards miss
negative indices combined with a larger direction), CPython's negative list
indexing swaps positions 2 and 0, and the second step ends with
`index = -1`: the invariant does not survive arbitrary
`move_step` calls, refuting the claim as stated. -/
theorem c1_counterexample :
    pipelineInvariant (applyOps noDefaults (create_new noDefaults 1) c1CtrOps) = true ∧
    pipelineInvariant (applyOps noDefaults (create_new noDefaults 1)
      (c1CtrOps ++ [.move (-1) 2])) = false ∧
    (applyOps noDefaults (create_new noDefaults 1)
      (c1CtrOps ++ [.move (-1) 2])).steps.map (fun s => s.index) = [1, -1, 3] := by
  refine ⟨?_, ?_, ?_⟩ <;> with_unfolding_all rfl

/-- C1 (amended): for every pipeline satisfying the invariant (as
`create_new` builds them) and every finite sequence of `add_step`,
`remove_step`, `move_step` and `duplicate_step` calls in which every
`move_step` call uses the documented direction domain `{-1, +1}`,
`general.parameters["step_count"]` stays the string form of `len(steps)`
and the k-th step carries `index = k` and `step_general/step_number =
str(k)`. -/
theorem c1_pipeline_invariant (defaults : Str → List (Str × Str))
    (p : PipelineConfig) (ops : List POp)
    (hp : pipelineInvariant p = true)
    (hmoves : ∀ op ∈ ops, opMoveDirOk op) :
    pipelineInvariant (applyOps defaults p ops) = true :=
  invariant_applyOps defaults ops p hp hmoves

/-- C1 witness: the invariant theorem applied to a concrete pipeline and a
concrete in-domain operation sequence. -/
theorem c1_pipeline_invariant_witness :
    pipelineInvariant (applyOps noDefaults (create_new noDefaults 1)
      c1WitnessOps) = true :=
  c1_pipeline_invariant noDefaults (create_new noDefaults 1) c1WitnessOps
    (by with_unfolding_all rfl)
    (by
      intro op hop
      rw [c1WitnessOps] at hop
      simp only [List.mem_cons, List.not_mem_nil, or_false] at hop
      rcases hop with rfl | rfl | rfl
      · trivial
      · trivial
      · exact Or.inr rfl)

/-- C2 counterexample: `c2BadTree` is an LUT tree whose top-level keys are
the two strings `a` and `a/b`, the second containing the separator `/`.
Flattening produces the paths `a` and `a/b`; unflattening then descends
through the entry stored under `a`, which is an `LUTField`, and
`LUTField` has no `_entries` attribute, so `unflatten` raises
`AttributeError` instead of reproducing the tree. Thus the round trip does
not hold for every LUT tree. -/
theorem c2_counterexample :
    roundtrip ['/'] c2BadTree = .error (.attributeError "LUTField" "_entries") ∧
    roundtrip ['/'] c2BadTree ≠ .ok c2BadTree := by
  have herr : roundtrip ['/'] c2BadTree =
      .error (.attributeError "LUTField" "_entries") := rfl
  exact ⟨herr, fun h => Except.noConfusion (herr.symm.trans h)⟩

/-- C2 (amended): for every LUT tree in which no key contains the separator
character, keys are unique within each level and every nested group is
non-empty, `flatten()` followed by `unflatten()` with the same separator
reproduces a structurally equal tree. -/
theorem c2_roundtrip (c : Char) (l : EntryL) (hg : goodL c l = true) :
    roundtrip [c] l = .ok l :=
  lut_roundtrip_of_good c l hg

/-- C2 witness: the round trip on a concrete well-formed nested tree. -/
theorem c2_roundtrip_witness :
    goodL '/' c2GoodTree = true ∧ roundtrip ['/'] c2GoodTree = .ok c2GoodTree :=
  ⟨rfl, c2_roundtrip '/' c2GoodTree rfl⟩

/-- C3: whenever `VersionedLUT.get_lut(step_type, version)` returns a tree
for a requested version `v` in the known version list, every field of that
tree has a validity interval containing `v` under the closed-interval test,
and the tree contains no empty nested group: a group all of whose fields
were removed is itself absent. -/
theorem c3_get_lut_version_filter (tables : List (Str × EntryL))
    (versions : List ℚ) (step_type : Str) (v : ℚ) (r : EntryL)
    (h : get_lut tables versions step_type (some v) = .ok r) :
    allFieldsValidL v r = true ∧ noEmptyL r = true :=
  get_lut_valid tables versions step_type v r h

/-- C3 witness: at version 1 the table keeps the top-level field valid at 1
and prunes the nested group whose only field starts at version 2. -/
theorem c3_get_lut_version_filter_witness :
    allFieldsValidL 1 c3Result = true ∧ noEmptyL c3Result = true :=
  c3_get_lut_version_filter c3SampleTables [1] "Image".toList 1 c3Result rfl

/-- C4 counterexample: after `add_step("image")` twice, `duplicate_step(1)`
and `remove_step(2)`, the duplicate is named from the running type count
(`image_3`), not from its source step (`image_1_2`), so the final list of
names is `[image_1, image_3]` and not the claimed `[image_1, image_1_2]`. -/
theorem c4_counterexample :
    (applyOps noDefaults (create_new noDefaults 1) c4Ops).steps.map
      (fun s => s.name) = ["image_1".toList, "image_3".toList] ∧
    (applyOps noDefaults (create_new noDefaults 1) c4Ops).steps.map
      (fun s => s.name) ≠ ["image_1".toList, "image_1_2".toList] := by
  have h : (applyOps noDefaults (create_new noDefaults 1) c4Ops).steps.map
      (fun s => s.name) = ["image_1".toList, "image_3".toList] := by
    with_unfolding_all rfl
  refine ⟨h, ?_⟩
  rw [h]
  decide

/-- C4 (amended): for every defaults table, creating a pipeline at version
1, adding two image steps, duplicating step 1 and removing step 2 yields
steps named `[image_1, image_3]` with indices `[1, 2]` and
`general.parameters["step_count"]` equal to `"2"`. -/
theorem c4_scenario (defaults : Str → List (Str × Str)) :
    (applyOps defaults (create_new defaults 1) c4Ops).steps.map
      (fun s => s.name) = ["image_1".toList, "image_3".toList] ∧
    (applyOps defaults (create_new defaults 1) c4Ops).steps.map
      (fun s => s.index) = [1, 2] ∧
    dlookup "step_count".toList
      (applyOps defaults (create_new defaults 1) c4Ops).general.parameters
      = some "2".toList := by
  refine ⟨?_, ?_, ?_⟩
  · with_unfolding_all rfl
  · with_unfolding_all rfl
  · exact dlookup_dinsert_self "step_count".toList (pyStr 2) _

/-- C5: for every editor controller and every version, `set_version(v)`
raises `AttributeError` — `ConfigValidator` defines no `set_version` method,
so the call `self.validator.set_version(...)` fails before any propagation
to the pipeline or LUT re-derivation can happen (and `PipelineConfig`
lacks `set_version` as well).  The claimed behaviour — completing without
raising — never occurs. -/
theorem c5_set_version_raises (c : EditorCtrl) (v : ℚ) :
    (editor_set_version c v).2.2 =
      .error (.attributeError "ConfigValidator" "set_version") := by
  with_unfolding_all rfl

/-- C7: with a pipeline loaded, `validate_step(index)` raises `TypeError`
for every index — the call `get_all_params(flat=False)` passes a keyword
that the method signature (`def get_all_params(self)`) does not accept — so
it does not return a `(success, message)` tuple on the invalid-index path;
`validate_general` raises the same `TypeError` with a pipeline loaded and
`AttributeError` without one. -/
theorem c7_validate_raises
    (rest : List (Str × Str) → Int → Except PyError (Bool × String))
    (restg : List (Str × Str) → Except PyError (Bool × String))
    (p : PipelineConfig) (cur i : Int) (v : ℚ) :
    editor_validate_step rest ⟨some p, cur, v⟩ i =
      .error (.typeError "get_all_params() got an unexpected keyword argument") ∧
    editor_validate_general restg ⟨some p, cur, v⟩ =
      .error (.typeError "get_all_params() got an unexpected keyword argument") ∧
    editor_validate_general restg ⟨none, cur, v⟩ =
      .error (.attributeError "NoneType" "general") := by
  refine ⟨?_, ?_, ?_⟩ <;> with_unfolding_all rfl

/-- C6 counterexample: in the 2×2 scenario with `should_stop_step` set
while slice 1 step 2 executes and the step completing successfully, the
only `experiment_stopped` event in the run reports slice 2 with next step
`s1` (step index 0) — `_cleanup_experiment` advances past the last step of
the slice to `(slice + 1, 0)` — and no event reports the claimed resume
position of slice 1. -/
theorem c6_counterexample :
    c6Run.2.1.filter (fun e => match e with
      | GEvent.experiment_stopped _ _ => true
      | _ => false) = [GEvent.experiment_stopped 2 "s1".toList] ∧
    GEvent.experiment_stopped 1 "s1".toList ∉ c6Run.2.1 ∧
    GEvent.experiment_stopped 1 "s2".toList ∉ c6Run.2.1 := by
  refine ⟨?_, ?_, ?_⟩ <;> decide

/-- C6 (amended): in the 2×2 scenario with `should_stop_step` set while
slice 1 step 2 executes and the step completing successfully before the
flag is observed, the loop ends with `progress_percent = 50`, `is_running`
cleared, the resume position reported as slice 2, step `s1` (index 0), and
no exception. -/
theorem c6_scenario :
    c6Run.1.progress_percent = 50 ∧
    c6Run.1.is_running = false ∧
    GEvent.experiment_stopped 2 "s1".toList ∈ c6Run.2.1 ∧
    c6Run.2.2 = none := by
  refine ⟨?_, ?_, ?_, ?_⟩ <;> decide

/-- C8 counterexample: the guards test only `index == 0` and
`index > len(steps)`, so negative indices slip through.  On a one-step
pipeline `remove_step(-1)` returns True (not False), and `move_step(-1, 2)`
passes both guards (target index 1 is in range) and then raises
`IndexError` reading `steps[-2]` via CPython's negative indexing — it
neither returns False nor leaves the call exception-free. -/
theorem c8_counterexample :
    (remove_step c8P (-1)).2 = true ∧
    move_step c8P (-1) 2 = .error .indexError := by
  constructor <;> with_unfolding_all rfl

/-- C8 (amended): whenever the target position `index + direction` falls
outside `[1, len(steps)]`, `move_step` returns False with the pipeline
unchanged, and for `index = 0` or `index > len(steps)` (the guarded cases —
negative indices are not guarded) `remove_step` returns False with the
pipeline unchanged. -/
theorem c8_remove_move_bounds (p : PipelineConfig) (index direction : Int)
    (h : index + direction < 1 ∨ index + direction > (p.steps.length : Int)) :
    move_step p index direction = .ok (p, false) ∧
    (index = 0 ∨ index > (p.steps.length : Int) → remove_step p index = (p, false)) := by
  constructor
  · rw [move_step]
    by_cases h1 : index = 0 ∨ index > (p.steps.length : Int)
    · rw [if_pos h1]
    · rw [if_neg h1, if_pos h]
  · intro h2
    rw [remove_step, if_pos h2]

/-- C8 witness: the bounds theorem at a concrete one-step pipeline with
`index = 0`, `direction = 5`. -/
theorem c8_remove_move_bounds_witness :
    move_step c8P 0 5 = .ok (c8P, false) ∧ remove_step c8P 0 = (c8P, false) :=
  have h := c8_remove_move_bounds c8P 0 5 (Or.inr (by decide))
  ⟨h.1, h.2 (Or.inl rfl)⟩

/-- C9 counterexample: on an idle controller whose configuration validates,
`start_experiment` with a `starting_step` name absent from the step
sequence replaces the state (setting `is_running = True`) *before* calling
`step_names.index(starting_step)`, which raises `ValueError`: the call
neither returns True nor fires `experiment_started` nor launches a thread,
yet leaves `is_running` True — the success half of the claim fails. -/
theorem c9_counterexample :
    c9Bad.outcome = .error (.valueError "starting_step is not in step_names") ∧
    c9Bad.ctrl.state.is_running = true ∧
    c9Bad.launched = none ∧
    c9Bad.events = [] := by
  refine ⟨?_, ?_, ?_, ?_⟩ <;> with_unfolding_all rfl

/-- C9 (amended): on an idle controller, when validation fails (including
the no-configuration-path case) `start_experiment` returns False for any
starting step, fires only `validation_failed`, launches no thread and
leaves the controller unchanged; when validation succeeds and the starting
step is either not given or names a step present in the sequence, it
resets the state with `is_running = True`, fires `experiment_started`
(after any detector warning) at the step's index, records the thread
launch and returns True.  `validate_config` always takes one of those two
shapes. -/
theorem c9_start_experiment (setup : String → Except String Settings)
    (c : ExperimentController) (slice : Int)
    (hidle : c.state.is_running = false) :
    ((∃ m, validate_config setup c = (false, none, some m)) ∨
      (∃ es, validate_config setup c = (true, some es, none))) ∧
    (∀ stp m, validate_config setup c = (false, none, some m) →
      start_experiment setup c slice stp =
        ⟨c, [GEvent.validation_failed m], none, .ok false⟩) ∧
    (∀ es, validate_config setup c = (true, some es, none) →
      start_experiment setup c slice none =
        ⟨{ c with state := { ExperimentState.initial with
              current_slice := slice
              total_slices := es.max_slice_number
              total_steps := es.step_count
              is_running := true } },
          detectorWarningEvents es ++ [GEvent.experiment_started slice 0],
          some (slice, 0, es.step_names), .ok true⟩) ∧
    (∀ es nm idx, validate_config setup c = (true, some es, none) →
      es.step_names.indexOf? nm = some idx →
      start_experiment setup c slice (some nm) =
        ⟨{ c with state := { ExperimentState.initial with
              current_slice := slice
              total_slices := es.max_slice_number
              total_steps := es.step_count
              is_running := true } },
          detectorWarningEvents es ++ [GEvent.experiment_started slice idx],
          some (slice, idx, es.step_names), .ok true⟩) := by
  refine ⟨?_, ?_, ?_, ?_⟩
  · cases hcp : c.config_path with
    | none =>
      refine Or.inl ⟨"No configuration file loaded", ?_⟩
      rw [validate_config, hcp]
    | some path =>
      cases hs : setup path with
      | ok s =>
        refine Or.inr ⟨s, ?_⟩
        rw [validate_config, hcp]
        simp only [hs]
      | error e =>
        refine Or.inl ⟨"Validation failed: " ++ e, ?_⟩
        rw [validate_config, hcp]
        simp only [hs]
  · intro stp m h
    rw [start_experiment, if_neg (by simp [hidle])]
    simp only [h, Option.getD_some]
  · intro es h
    rw [start_experiment, if_neg (by simp [hidle])]
    simp only [h]
  · intro es nm idx h hidx
    rw [start_experiment, if_neg (by simp [hidle])]
    simp only [h, hidx]

/-- C9 witness: the two success branches of the start theorem on a concrete
idle controller with a succeeding setup — starting step not given, and
starting step naming the second step of the sequence. -/
theorem c9_start_experiment_witness :
    (start_experiment c9SetupOk c9CtrlIdle 1 none =
      ⟨{ c9CtrlIdle with state := { ExperimentState.initial with
            current_slice := 1
            total_slices := c9Settings.max_slice_number
            total_steps := c9Settings.step_count
            is_running := true } },
        detectorWarningEvents c9Settings ++ [GEvent.experiment_started 1 0],
        some (1, 0, c9Settings.step_names), .ok true⟩) ∧
    (start_experiment c9SetupOk c9CtrlIdle 1 (some "b".toList) =
      ⟨{ c9CtrlIdle with state := { ExperimentState.initial with
            current_slice := 1
            total_slices := c9Settings.max_slice_number
            total_steps := c9Settings.step_count
            is_running := true } },
        detectorWarningEvents c9Settings ++ [GEvent.experiment_started 1 1],
        some (1, 1, c9Settings.step_names), .ok true⟩) :=
  ⟨(c9_start_experiment c9SetupOk c9CtrlIdle 1 rfl).2.2.1 c9Settings rfl,
   (c9_start_experiment c9SetupOk c9CtrlIdle 1 rfl).2.2.2 c9Settings
     "b".toList 1 rfl (by decide)⟩

/-- C10 counterexample: `_notify` guards the callback call with
`except Exception`, which does not catch exceptions deriving only
`BaseException`: a callback raising `KeyboardInterrupt` propagates out of
both controllers' dispatch, so not *every* exception a callback raises is
caught. -/
theorem c10_counterexample :
    editor_notify c10CbsKI "ev" = .error .keyboardInterrupt ∧
    runner_notify c10CbsKI "ev" = .error .keyboardInterrupt := by
  constructor <;> with_unfolding_all rfl

/-- C10 (amended): for every callback registry whose callbacks fail only
with `Exception`-class errors (the case for ordinary Python exceptions) and
every event, the `_notify` dispatch of both `EditorController` and
`ExperimentController` catches the error and returns normally. -/
theorem c10_notify_catches (cbs : List (String × Except PyError Unit))
    (event : String)
    (h : cbs.all (fun pr => match pr.2 with
      | .error e => e.isExceptionClass
      | .ok _ => true) = true) :
    editor_notify cbs event = .ok () ∧ runner_notify cbs event = .ok () := by
  constructor
  · rw [editor_notify]
    cases hlk : slookup event cbs with
    | none => rfl
    | some r =>
      cases r with
      | ok u => rfl
      | error e =>
        have hmem := slookup_mem event cbs _ hlk
        have ha : e.isExceptionClass = true := List.all_eq_true.mp h (event, .error e) hmem
        show (if e.isExceptionClass then Except.ok () else Except.error e) = .ok ()
        rw [if_pos ha]
  · rw [runner_notify]
    cases hlk : slookup event cbs with
    | none => rfl
    | some r =>
      cases r with
      | ok u => rfl
      | error e =>
        have hmem := slookup_mem event cbs _ hlk
        have ha : e.isExceptionClass = true := List.all_eq_true.mp h (event, .error e) hmem
        show (if e.isExceptionClass then Except.ok () else Except.error e) = .ok ()
        rw [if_pos ha]

/-- C10 witness: the dispatch theorem on a registry whose only callback
raises a `ValueError`. -/
theorem c10_notify_catches_witness :
    editor_notify c10CbsExc "ev" = .ok () ∧ runner_notify c10CbsExc "ev" = .ok () :=
  c10_notify_catches c10CbsExc "ev" (by decide)
